import Mathlib

/-!
Verification of the pycicle command-line parsing engine
(`src/pycicle/cmd_parser.py` and `src/pycicle/tools/parsers.py`).

Python strings are modelled as `List Char` (`Str`), Python values flowing
through the engine as `Value` (scalars, lists of scalars, `None` and the
`MISSING` sentinel), and exceptions as `Except` results carrying a `PyErr`.
Stateful methods that mutate the per-instance value store thread an explicit
`Store`; an exception raised halfway through a sequence of mutations returns
the mutated-so-far store (`UpOutcome.err`), matching Python semantics.

Functions that Python writes with `while` loops or unbounded recursion are
given a `Nat` fuel argument so that they stay structurally recursive and
kernel-computable; in each case a fuel-adequacy lemma shows the published
wrapper (which passes enough fuel) satisfies the original recurrence, so the
fuel is purely a termination device and never changes the result.
-/

abbrev Str := List Char

/-- Whitespace characters recognised by Python's `str.split()` / `str.strip()`
(ASCII subset; the source never feeds other unicode whitespace). -/
def isWs (c : Char) : Bool :=
  c = ' ' || c = '\t' || c = '\n' || c = '\x0d' || c = '\x0b' || c = '\x0c'

/-- `str.partition(d)` from Python: split at the first occurrence of `d`,
returning (before, found?, after). -/
def partitionC (d : Char) : Str → Str × Bool × Str
  | [] => ([], false, [])
  | c :: cs =>
    if c = d then ([], true, cs)
    else
      let r := partitionC d cs
      (c :: r.1, r.2.1, r.2.2)

/-- Accumulator-based `str.split()` (split on runs of whitespace, dropping
empty pieces); `cur` holds the current word reversed. -/
def splitWsA (cur : Str) : Str → List Str
  | [] => if cur = [] then [] else [cur.reverse]
  | c :: cs =>
    if isWs c then
      if cur = [] then splitWsA [] cs else cur.reverse :: splitWsA [] cs
    else splitWsA (c :: cur) cs

/-- Python `str.split()` with no separator argument. -/
def splitWs (s : Str) : List Str := splitWsA [] s

/-- `parse_split` from `tools/parsers.py`, with fuel for termination: scan for
the quote delimiter; unquoted runs are whitespace-split, quoted runs become a
single token; a missing closing quote is an error. Fuel never runs out when
it exceeds the input length (`parseSplitF_fuel`). -/
def parseSplitF (d : Char) : Nat → Str → Except Unit (List Str)
  | _, [] => .ok []
  | 0, _ :: _ => .error ()
  | fuel + 1, c :: cs =>
    match partitionC d (c :: cs) with
    | (before, false, _) => .ok (splitWs before)
    | (before, true, after) =>
      match partitionC d after with
      | (_, false, _) => .error ()
      | (between, true, after2) =>
        match parseSplitF d fuel after2 with
        | .error e => .error e
        | .ok rest => .ok (splitWs before ++ between :: rest)

/-- `parse_split(string, delimiter)` (the repository's `quote_split`). -/
def parseSplit (d : Char) (s : Str) : Except Unit (List Str) :=
  parseSplitF d (s.length + 1) s

/-- `quotify(string, delimiter, char=' ')`: wrap in quotes when empty or when
the separator occurs inside (the `not char` branch of the source is dead for
the engine's fixed `char=' '` and is not modelled). -/
def quotify (d : Char) (sep : Char) (s : Str) : Str :=
  if s = [] ∨ sep ∈ s then d :: s ++ [d] else s

/-- `split_encode(strings, delimiter)` (the repository's `quote_join`):
space-join the quotified tokens. -/
def splitEncode (d : Char) (strings : List Str) : Str :=
  List.intercalate [' '] (strings.map (quotify d ' '))

/-- Python `str.strip()` (whitespace from both ends). -/
def stripWs (s : Str) : Str :=
  ((s.dropWhile isWs).reverse.dropWhile isWs).reverse

/-- Python `str.lower()` (ASCII). -/
def lowerStr (s : Str) : Str := s.map Char.toLower

/-! ### Python `int()` on strings and `str()` on ints -/

def digitChar (d : Nat) : Char := Char.ofNat (48 + d)

/-- Decimal digits of `n`, most significant first; fuel-driven recursion on
`n / 10` (adequate fuel: `natDigitsF_fuel`). -/
def natDigitsF : Nat → Nat → Str
  | 0, _ => []
  | fuel + 1, n =>
    if n < 10 then [digitChar n]
    else natDigitsF fuel (n / 10) ++ [digitChar (n % 10)]

def natDigits (n : Nat) : Str := natDigitsF (n + 1) n

/-- Python `str()` of an int. -/
def intEncode (n : Int) : Str :=
  if n < 0 then '-' :: natDigits n.natAbs else natDigits n.toNat

/-- Tail of Python's int-literal digit grammar: digits with single `_`
separators strictly between digits. -/
def digitsTail : Str → Bool
  | [] => true
  | '_' :: [] => false
  | '_' :: c :: rest => c.isDigit && digitsTail rest
  | c :: rest => c.isDigit && digitsTail rest

/-- A valid (unsigned) digit group for Python `int()`. -/
def validDigitsU : Str → Bool
  | [] => false
  | c :: rest => c.isDigit && digitsTail rest

def digitsVal (s : Str) : Nat :=
  (s.filter (fun c => c ≠ '_')).foldl (fun a c => a * 10 + (c.toNat - 48)) 0

inductive PyErr
  | validation   -- ValidationError
  | tooMany      -- ValueError for leftover positional tokens
  | valueErr     -- TypeError/ValueError from casts and decoders
  | config       -- ConfigError
  | unbalanced   -- ValueError from parse_split (unmatched quote)
  | attributeErr -- AttributeError from a missing required value
  deriving DecidableEq, Repr

/-- Python `int(s)` for a string `s`: strip whitespace, optional sign,
underscore-separated digits. -/
def pyIntOfStr (s : Str) : Except PyErr Int :=
  match stripWs s with
  | '+' :: rest =>
    if validDigitsU rest then .ok (Int.ofNat (digitsVal rest)) else .error .valueErr
  | '-' :: rest =>
    if validDigitsU rest then .ok (-(Int.ofNat (digitsVal rest))) else .error .valueErr
  | t => if validDigitsU t then .ok (Int.ofNat (digitsVal t)) else .error .valueErr

/-- `parse_bool` from `tools/parsers.py` restricted to string input (the
engine's decoders always pass the collected token). -/
def parseBool (s : Str) : Except PyErr Bool :=
  let t := lowerStr (stripWs s)
  if t ∈ ["true".toList, "yes".toList, "t".toList, "y".toList, "1".toList] then .ok true
  else if t ∈ ["false".toList, "no".toList, "f".toList, "n".toList, "0".toList] then .ok false
  else .error .valueErr

/-- `encode_bool` from `tools/parsers.py`. -/
def encodeBool (b : Bool) : Str := if b then "true".toList else "false".toList

/-! ### Values, types and the Argument descriptor -/

/-- The scalar decode targets the engine handles (`Argument.basic_types`
minus `float`, which no claim touches). -/
inductive PyType
  | tStr | tInt | tBool
  deriving DecidableEq, Repr

/-- Scalar runtime values. -/
inductive Scalar
  | s (v : Str)
  | i (n : Int)
  | b (v : Bool)
  deriving DecidableEq, Repr

/-- Runtime values held in the value store: scalars, lists of scalars
(the `many` shape), Python `None`, and the `MISSING` sentinel object. -/
inductive Value
  | sc (x : Scalar)
  | vList (xs : List Scalar)
  | vNone
  | vMissing
  deriving DecidableEq, Repr

/-- Python truthiness of a scalar. -/
def truthyS : Scalar → Bool
  | .s v => !v.isEmpty
  | .i n => n ≠ 0
  | .b v => v

/-- Python truthiness of a value (`MISSING` is a plain `object()`, truthy). -/
def truthy : Value → Bool
  | .sc x => truthyS x
  | .vList xs => !xs.isEmpty
  | .vNone => false
  | .vMissing => true

/-- Python `str()` of a scalar (note `str(True) == 'True'`). -/
def pyStrS : Scalar → Str
  | .s v => v
  | .i n => intEncode n
  | .b v => if v then "True".toList else "False".toList

/-- The `cast` closure inside `Argument._validate`:
`value if type(value) is self.type else self.type(value)`. -/
def castS : PyType → Scalar → Except PyErr Scalar
  | .tStr, x => .ok (.s (pyStrS x))
  | .tInt, .i n => .ok (.i n)
  | .tInt, .s v => (pyIntOfStr v).map .i
  | .tInt, .b v => .ok (.i (if v then 1 else 0))
  | .tBool, x => .ok (.b (truthyS x))

/-- `Argument` after `validate_config` has run: `flags` and `positional` hold
their computed values (`name` is set by `__set_name__`). -/
structure Argument where
  type : PyType
  flags : List Str
  many : Bool
  default : Value
  valid : Option (Value → Bool)
  name : Str
  positional : Bool

/-- `Argument.switch`: a `bool` argument whose default is `False`. -/
def Argument.isSwitch (a : Argument) : Bool :=
  a.type = .tBool && a.default = .sc (.b false)

/-- `Argument.required`: no default was given. -/
def Argument.required (a : Argument) : Bool := a.default = .vMissing

/-- The per-element encoder `self._encode`: `encode_bool` for `bool`
(from the type-codec table), Python `str` otherwise. -/
def Argument.pencodeS (a : Argument) (x : Scalar) : Str :=
  match a.type with
  | .tBool => encodeBool (truthyS x)
  | _ => pyStrS x

/-- The per-element decoder `self._decode`: `parse_bool` for `bool` (codec
table), the type itself otherwise (`int(s)`; `str(s)` is the identity). -/
def Argument.pdecodeS (a : Argument) (tok : Str) : Except PyErr Scalar :=
  match a.type with
  | .tStr => .ok (.s tok)
  | .tInt => (pyIntOfStr tok).map .i
  | .tBool => (parseBool tok).map .b

/-- `Argument.encode`: `None`/`MISSING` encode to `''`; `many` values are
element-encoded and `quote_join`ed; scalars use `self._encode`. The
fall-through branches (iterating a non-list, `str()` of a list) are never
reached by the parse/command paths modelled here. -/
def Argument.encode (a : Argument) (v : Value) : Str :=
  if v = .vNone ∨ v = .vMissing then []
  else if a.many then
    match v with
    | .vList xs => splitEncode '"' (xs.map a.pencodeS)
    | _ => []
  else
    match v with
    | .sc x => a.pencodeS x
    | _ => []

/-- The argument to `Argument.decode`: either a raw string or an
already-collected token list. -/
inductive StrOrList
  | str (x : Str)
  | list (xs : List Str)
  deriving DecidableEq, Repr

/-- `Argument.decode`: for `many`, a raw string is whitespace-split (note:
NOT quote-split), an empty sequence yields the default, otherwise each piece
is element-decoded; for single arity, `''` yields the default for non-`str`
types, otherwise the element decoder runs. `_decode` applied to a list
(single arity, list input) raises for the engine's types and is modelled as
an error; the parser never passes that combination. -/
def Argument.decode (a : Argument) (inp : StrOrList) : Except PyErr Value :=
  if a.many then
    let toks := match inp with | .str x => splitWs x | .list xs => xs
    if toks = [] then .ok a.default
    else (toks.mapM a.pdecodeS).map .vList
  else
    match inp with
    | .str x =>
      if a.type ≠ .tStr ∧ x = [] then .ok a.default
      else (a.pdecodeS x).map .sc
    | .list _ => .error .valueErr

/-- `Argument.parse_list`: `DEFAULT` sentinel (flag absent) is `none`;
an empty collected list means the flag appeared with no value. -/
def Argument.parseList (a : Argument) : Option (List Str) → Except PyErr Value
  | Option.none =>
    if a.default = .vMissing then .error .validation else .ok a.default
  | some [] =>
    if a.isSwitch then .ok (.sc (.b true)) else .error .validation
  | some (t :: ts) =>
    a.decode (if a.many then .list (t :: ts) else .str t)

/-- The `cast` closure of `Argument._validate` lifted to values: cast per
element for `many` (iterating a non-list raises for the engine's types),
`self.type(value)` otherwise (casting `None` to `int` raises; a raw list
in the single branch raises for the modelled types and is never reached). -/
def castValue (ty : PyType) (many : Bool) (v : Value) : Except PyErr Value :=
  if many then
    match v with
    | .vList xs => (xs.mapM (castS ty)).map .vList
    | _ => .error .valueErr
  else
    match v with
    | .sc x => (castS ty x).map .sc
    | .vNone =>
      match ty with
      | .tStr => .ok (.sc (.s "None".toList))
      | .tInt => .error .valueErr
      | .tBool => .ok (.sc (.b false))
    | _ => .error .valueErr

/-- `Argument._validate` (shared with default validation): cast, then apply
the custom validator. -/
def rawValidate (ty : PyType) (many : Bool) (valid : Option (Value → Bool))
    (v : Value) : Except PyErr Value :=
  match castValue ty many v with
  | .error e => .error e
  | .ok v' =>
    match valid with
    | some f => if f v' then .ok v' else .error .valueErr
    | Option.none => .ok v'

def Argument.pvalidate (a : Argument) (v : Value) : Except PyErr Value :=
  rawValidate a.type a.many a.valid v

/-- `Argument.validate`: reject `MISSING`, accept the exact default without
re-casting (Python compares with `is`; for the immutable values modelled
here identity and equality coincide on every reachable path, since a value
structurally equal to the already-validated default re-validates to itself),
else run `_validate`. -/
def Argument.validate (a : Argument) (v : Value) : Except PyErr Value :=
  if v = .vMissing then .error .valueErr
  else if v = a.default then .ok v
  else a.pvalidate v

/-! ### The value store and descriptor get/set -/

/-- The per-instance `__arg_values__` dict: insertion-ordered name/value
pairs. -/
abbrev Store := List (Str × Value)

/-- Association lookup (first match), shared by the value store and the
parser's kwargs dict. -/
def aGet {β : Type} : List (Str × β) → Str → Option β
  | [], _ => Option.none
  | (m, w) :: rest, n => if m = n then some w else aGet rest n

/-- Dict assignment: replace the first matching key in place (dicts keep
insertion position on overwrite), append if absent. -/
def aSet {β : Type} : List (Str × β) → Str → β → List (Str × β)
  | [], n, v => [(n, v)]
  | (m, w) :: rest, n, v =>
    if m = n then (n, v) :: rest else (m, w) :: aSet rest n v

/-- `Argument.__set__`: validate and store; `TypeError`/`ValueError`/
`AttributeError` become `ValidationError`. -/
def Argument.setVal (a : Argument) (st : Store) (v : Value) : Except PyErr Store :=
  match a.validate v with
  | .ok v' => .ok (aSet st a.name v')
  | .error _ => .error .validation

/-- `Argument.__get__` on an instance: stored value, else cache-and-return
the default, else `AttributeError`. -/
def Argument.getVal (a : Argument) (st : Store) : Except PyErr (Value × Store) :=
  match aGet st a.name with
  | some v => .ok (v, st)
  | Option.none =>
    if a.default ≠ .vMissing then .ok (a.default, aSet st a.name a.default)
    else .error .attributeErr

/-- `Argument.__delete__`: drop the stored value, restore a default. -/
def Argument.delVal (a : Argument) (st : Store) : Store :=
  let st' := st.filter (fun p => p.1 ≠ a.name)
  if a.default ≠ .vMissing then aSet st' a.name a.default else st'

/-! ### Schema declaration: `validate_config` and `__init_subclass__` -/

/-- The constructor arguments of `Argument` as written in a schema class
body, before `validate_config` runs. -/
structure ArgSpec where
  type : PyType
  flags : Option (List Str) := Option.none
  many : Bool := false
  default : Value := .vMissing
  valid : Option (Value → Bool) := Option.none
  name : Str

/-- `Argument._validate_default`: `None` and `MISSING` pass untouched;
anything else must survive `_validate`, failures become `ConfigError`. -/
def validateDefault (spec : ArgSpec) : Except PyErr Value :=
  if spec.default = .vNone ∨ spec.default = .vMissing then .ok spec.default
  else
    match rawValidate spec.type spec.many spec.valid spec.default with
    | .ok v => .ok v
    | .error _ => .error .config

/-- `valid_format` inside `Argument._validate_flags`. -/
def validFormatFlag (f : Str) : Except PyErr Str :=
  let f := stripWs f
  if f.take 2 = "--".toList then
    if f.length < 3 then .error .config else .ok f
  else if f.take 1 = "-".toList then
    if f.length ≠ 2 then .error .config else .ok f
  else .error .config

/-- `remove_existing` inside `Argument._validate_flags`: drop flags already
owned by earlier arguments; none left is a `ConfigError`. -/
def removeExisting (existing : List Argument) (fl : List Str) : Except PyErr (List Str) :=
  let fs := fl.filter (fun f => existing.all (fun a => f ∉ a.flags))
  if fs = [] then .error .config else .ok fs

/-- `Argument._validate_flags`: configured flags are format-checked, else
`--name`/`-first letter` are generated; duplicates with earlier arguments
are removed. Class attribute names are never empty, so the fallback for an
empty name is unreachable. -/
def validateFlags (spec : ArgSpec) (existing : List Argument) : Except PyErr (List Str) :=
  match spec.flags with
  | some fl =>
    match fl.mapM validFormatFlag with
    | .error e => .error e
    | .ok fs => removeExisting existing fs
  | Option.none =>
    match spec.name with
    | c :: _ => removeExisting existing ['-' :: '-' :: spec.name, ['-', c]]
    | [] => .error .config

def countMany (existing : List Argument) : Nat :=
  existing.countP (fun a => a.many)

/-- `Argument.validate_config`: the type is always one of the modelled basic
types, so the `issubclass` check passes; then reserved/underscore name
checks, default validation, positional eligibility (computed from the
previously declared arguments only), and flag assignment. -/
def validateConfig (spec : ArgSpec) (existing : List Argument) : Except PyErr Argument :=
  if spec.name = "help".toList ∨ spec.name = "gui".toList then .error .config
  else if spec.name.head? = some '_' then .error .config
  else
    match validateDefault spec with
    | .error e => .error e
    | .ok dflt =>
      let positional :=
        decide (countMany existing ≤ 1) &&
          existing.all (fun e => e.positional && !e.isSwitch)
      match validateFlags spec existing with
      | .error e => .error e
      | .ok flags =>
        .ok ⟨spec.type, flags, spec.many, dflt, spec.valid, spec.name, positional⟩

/-- `KeywordArguments.__init_subclass__`: validate each declared argument
against those already accepted, in declaration order. -/
def buildGo (acc : List Argument) : List ArgSpec → Except PyErr (List Argument)
  | [] => .ok acc
  | s :: rest =>
    match validateConfig s acc with
    | .error e => .error e
    | .ok a => buildGo (acc ++ [a]) rest

def buildSchema (specs : List ArgSpec) : Except PyErr (List Argument) :=
  buildGo [] specs

/-- `KeywordArguments.__init__` with no keyword overrides: store every
non-`MISSING` default (each passes `validate` unchanged by the
equality-with-default branch, so the store receives the default itself). -/
def initStore (schema : List Argument) : Store :=
  schema.foldl
    (fun st a => if a.default = .vMissing then st else aSet st a.name a.default) []

/-! ### The core parse algorithm (`CmdParser._parse_list`) -/

/-- The kwargs dict built by `get_args_kwargs`: name to collected tokens. -/
abbrev KW := List (Str × List Str)

/-- `flag_lookup`: flag to owning argument's name, later declarations
winning on (configuration-impossible) duplicates, as in the source's dict
comprehension. -/
def flagOwner (schema : List Argument) (tok : Str) : Option Str :=
  schema.foldl (fun acc a => if tok ∈ a.flags then some a.name else acc) Option.none

/-- Append a token to an existing bucket (the bucket always exists when this
runs: the current flag just created it). -/
def kwApp : KW → Str → Str → KW
  | [], _, _ => []
  | (m, b) :: rest, n, t =>
    if m = n then (m, b ++ [t]) :: rest else (m, b) :: kwApp rest n t

/-- The scan loop of `get_args_kwargs`: a known flag opens a fresh bucket;
other tokens join the current bucket, or the positional list while no flag
has been seen. The full loop state (positional list, buckets, current
bucket name) is returned so that runs compose. -/
def gakGo (schema : List Argument) :
    List Str → List Str → KW → Option Str → List Str × KW × Option Str
  | [], pos, kw, cur => (pos, kw, cur)
  | t :: ts, pos, kw, cur =>
    match flagOwner schema t with
    | some n => gakGo schema ts pos (aSet kw n []) (some n)
    | Option.none =>
      match cur with
      | Option.none => gakGo schema ts (pos ++ [t]) kw Option.none
      | some n => gakGo schema ts pos (kwApp kw n t) (some n)

/-- `get_args_kwargs`: returns (positional candidates, flagged buckets);
the final current-bucket name is dropped as in `kwargs.pop(None)`. -/
def getArgsKwargs (schema : List Argument) (toks : List Str) : List Str × KW :=
  ((gakGo schema toks [] [] Option.none).1, (gakGo schema toks [] [] Option.none).2.1)

/-- The `pos_arg_defs` prefix: declared arguments up to the first one already
claimed by a flag. -/
def posCandidates (schema : List Argument) (kw : KW) : List Argument :=
  match schema with
  | [] => []
  | a :: rest =>
    if (aGet kw a.name).isSome then []
    else a :: posCandidates rest kw

/-- The left-to-right assignment loop: pop one token per fixed-arity
descriptor; running out of descriptors while tokens remain is the
`IndexError` that `get_positional_kwargs` reports as too-many-positionals. -/
def leftLoop : List Str → List Argument →
    Except PyErr (List (Str × List Str) × List Str × List Argument)
  | [], defs => .ok ([], [], defs)
  | _ :: _, [] => .error .tooMany
  | t :: ts, d :: ds =>
    if d.many then .ok ([], t :: ts, d :: ds)
    else
      match leftLoop ts ds with
      | .error e => .error e
      | .ok (ks, args', defs') => .ok ((d.name, [t]) :: ks, args', defs')

/-- The right-to-left loop: identical popping from the tails
(`pop(-1)` equals `pop(0)` on the reversed lists). -/
def rightLoop (args : List Str) (defs : List Argument) :
    Except PyErr (List (Str × List Str) × List Str × List Argument) :=
  match leftLoop args.reverse defs.reverse with
  | .error e => .error e
  | .ok (ks, args', defs') => .ok (ks, args'.reverse, defs'.reverse)

/-- `get_positional_kwargs`: greedy left then right assignment; if tokens
remain and exactly one descriptor does, it takes them all; otherwise the
remaining tokens are returned unassigned (the source's final `if` silently
ignores them). -/
def getPositionalKwargs (schema : List Argument) (kw : KW) (posArgs : List Str) :
    Except PyErr (List (Str × List Str)) :=
  match leftLoop posArgs (posCandidates schema kw) with
  | .error e => .error e
  | .ok (k1, args1, defs1) =>
    match rightLoop args1 defs1 with
    | .error e => .error e
    | .ok (k2, args2, defs2) =>
      match args2, defs2 with
      | t :: ts, [d] => .ok (k1 ++ k2 ++ [(d.name, t :: ts)])
      | _, _ => .ok (k1 ++ k2)

/-- `kwargs.update(pos_kwargs)`. -/
def kwUpdate (kw : KW) (pk : List (Str × List Str)) : KW :=
  pk.foldl (fun acc p => aSet acc p.1 p.2) kw

/-- The pure part of `_parse_list`: collect buckets, assign positionals, and
evaluate the full `{name: parse_list(...)}` dict comprehension (Python
builds this dict completely before `update` runs). -/
def parseListCore (schema : List Argument) (toks : List Str) :
    Except PyErr (List (Str × Value)) :=
  let (posArgs, kw) := getArgsKwargs schema toks
  match getPositionalKwargs schema kw posArgs with
  | .error e => .error e
  | .ok pk =>
    let kw2 := kwUpdate kw pk
    schema.mapM (fun a => (a.parseList (aGet kw2 a.name)).map (fun v => (a.name, v)))

/-- Outcome of a store-mutating call: success, or an exception carrying the
store as it stands when the exception escapes. -/
inductive UpOutcome
  | ok (st : Store)
  | err (e : PyErr) (st : Store)
  deriving DecidableEq, Repr

/-- `KeywordArguments._update`: `setattr` one name at a time through the
descriptors; a validation failure aborts mid-sequence, keeping the earlier
writes. A name without a descriptor would become a plain attribute; no
modelled caller passes one. -/
def updateSeq (schema : List Argument) (st : Store) :
    List (Str × Value) → UpOutcome
  | [] => .ok st
  | (n, v) :: rest =>
    match schema.find? (fun a => a.name = n) with
    | some a =>
      match a.setVal st v with
      | .ok st' => updateSeq schema st' rest
      | .error e => .err e st
    | Option.none => updateSeq schema (aSet st n v) rest

/-- `CmdParser._parse_list`: evaluate the comprehension, then apply it via
`update`. -/
def runParseList (schema : List Argument) (st : Store) (toks : List Str) : UpOutcome :=
  match parseListCore schema toks with
  | .error e => .err e st
  | .ok kvs => updateSeq schema st kvs

/-! ### normalize, dispatch, and the canonical command line -/

/-- `CmdParser._remove_entry_file`: drop a leading token equal to the entry
file's name (with or without path); the two candidate names are abstract
inputs here. -/
def removeEntryFile (entry : List Str) (toks : List Str) : List Str :=
  match toks with
  | t :: rest => if t ∈ entry then rest else toks
  | [] => []

/-- `CmdParser.normalize`: quote-split then strip the entry file. -/
def normalizeLine (entry : List Str) (line : Str) : Except PyErr (List Str) :=
  match parseSplit '"' line with
  | .error _ => .error .unbalanced
  | .ok toks => .ok (removeEntryFile entry toks)

/-- `CmdParser.__call__` on a parser with no sub-parsers: `--help`/`--gui`
divert without touching the store, anything else runs `_parse_list`
(target invocation is outside the store semantics). -/
def callParse (schema : List Argument) (entry : List Str) (st : Store) (line : Str) :
    UpOutcome :=
  match normalizeLine entry line with
  | .error e => .err e st
  | .ok toks =>
    match toks with
    | [] => runParseList schema st []
    | t :: _ =>
      if t = "--help".toList ∨ t = "--gui".toList then .ok st
      else runParseList schema st toks

/-- `Argument._cmd_flag`: `min`/`max` of the flags by length, first optimum
winning as in Python's `min`/`max`. -/
def pickFlag (short : Bool) : List Str → Str
  | [] => []
  | f :: fs =>
    fs.foldl
      (fun acc x =>
        if (if short then x.length < acc.length else acc.length < x.length)
        then x else acc) f

/-- `Argument.cmd`: read the value (possibly caching a default), then render
this argument's command-line fragment. -/
def Argument.cmdFragment (a : Argument) (st : Store) (short : Bool) :
    Except PyErr (Str × Store) :=
  match a.getVal st with
  | .error e => .error e
  | .ok (v, st') =>
    if a.isSwitch then
      if truthy v then .ok (pickFlag short a.flags, st') else .ok ([], st')
    else
      if a.encode v = [] then .ok ([], st')
      else if short && a.positional then .ok (a.encode v, st')
      else .ok (pickFlag short a.flags ++ ' ' :: a.encode v, st')

/-- The list comprehension inside `CmdParser.command`. -/
def commandAux (short : Bool) : List Argument → Store → Except PyErr (List Str × Store)
  | [], st => .ok ([], st)
  | a :: rest, st =>
    match a.cmdFragment st short with
    | .error e => .error e
    | .ok (c, st') =>
      match commandAux short rest st' with
      | .error e => .error e
      | .ok (cs, st'') => .ok (c :: cs, st'')

/-- `CmdParser.command(short)` for a root parser with default `file`/`path`/
`list` arguments: `None` when reading any argument raises (the only
exception reachable from `cmd` is the `AttributeError` the source catches),
else the space-join of the non-empty fragments. -/
def commandOf (schema : List Argument) (st : Store) (short : Bool) : Option Str :=
  match commandAux short schema st with
  | .error _ => Option.none
  | .ok (cs, _) => some (List.intercalate [' '] (cs.filter (fun c => c ≠ [])))

/-! ### Predicates used in the theorem statements -/

def exIsOk {ε α : Type} : Except ε α → Bool
  | .ok _ => true
  | .error _ => false

def scalarTy : Scalar → PyType
  | .s _ => .tStr
  | .i _ => .tInt
  | .b _ => .tBool

/-- The value tokens an argument contributes to a (long-form) command line. -/
def valToks (a : Argument) (v : Value) : List Str :=
  match v with
  | .sc x => [a.pencodeS x]
  | .vList xs => xs.map a.pencodeS
  | _ => []

/-- The token sequence of one argument's long-form command fragment. -/
def fragToks (a : Argument) (v : Value) : List Str :=
  if a.isSwitch then
    if truthy v then [pickFlag false a.flags] else []
  else if a.encode v = [] then []
  else pickFlag false a.flags :: valToks a v

/-- A value token that survives re-tokenizing and re-collection: nonempty,
free of whitespace and quote characters, and not a recognized flag. -/
def safeTokB (schema : List Argument) (t : Str) : Bool :=
  !t.isEmpty && t.all (fun c => !isWs c && c ≠ '"') && (flagOwner schema t).isNone

/-- A well-formed flag string as the round-trip needs it: dash-initial,
at least two characters, no whitespace or quotes, and not one of the
dispatcher's reserved first tokens. -/
def flagOK (f : Str) : Bool :=
  decide (2 ≤ f.length) && f.head? = some '-' &&
    f.all (fun c => !isWs c && c ≠ '"') &&
    f ≠ "--help".toList && f ≠ "--gui".toList

/-- Structural invariants `__init_subclass__` establishes for a schema,
plus quote/whitespace-cleanliness of the flags: distinct names, globally
distinct well-formed flags, and no `many` switch (the configuration check
rejects `bool` + `many=True` + `default=False`). -/
def wfSchemaB (schema : List Argument) : Bool :=
  decide (schema.map (fun a => a.name)).Nodup &&
    decide ((schema.map (fun a => a.flags)).flatten.Nodup) &&
    schema.all (fun a => !a.flags.isEmpty && a.flags.all flagOK &&
      (!a.isSwitch || !a.many))

/-- Entry-file names that cannot be mistaken for a leading flag token. -/
def entryOKB (entry : List Str) : Bool :=
  entry.all (fun e => e.head? ≠ some '-')

/-- The per-value condition of the round-trip law: every token the value
renders to is safe, and a value that renders to nothing is the default
(so re-parsing restores it). -/
def safeValB (schema : List Argument) (a : Argument) (v : Value) : Bool :=
  match v with
  | .vMissing => false
  | .vNone => a.default = .vNone
  | .sc (.s s) => if s = [] then a.default = .sc (.s []) else safeTokB schema s
  | .sc (.i n) => safeTokB schema (intEncode n)
  | .sc (.b _) => true
  | .vList [] => a.default = .vList []
  | .vList xs => xs.all (fun x => safeTokB schema (a.pencodeS x))

/-- Every declared argument holds a safe value in the store. -/
def safeStoreB (schema : List Argument) (st : Store) : Bool :=
  schema.all (fun a =>
    match aGet st a.name with
    | some v => safeValB schema a v
    | Option.none => false)

/-! ### Concrete schemas for the scenario claims and counterexamples -/

def toksOf (l : List String) : List Str := l.map String.toList

/-- Schema of the C3 scenario: `one: int`, `two: int many`, `three: int`,
all required. -/
def c3specs : List ArgSpec :=
  [ { type := .tInt, name := "one".toList },
    { type := .tInt, many := true, name := "two".toList },
    { type := .tInt, name := "three".toList } ]

/-- The arguments `__init_subclass__` derives from `c3specs` (note `-t` is
taken by `two`, so `three` keeps only its long flag). -/
def c3schema : List Argument :=
  [ { type := .tInt, flags := ["--one".toList, "-o".toList], many := false,
      default := .vMissing, valid := Option.none, name := "one".toList,
      positional := true },
    { type := .tInt, flags := ["--two".toList, "-t".toList], many := true,
      default := .vMissing, valid := Option.none, name := "two".toList,
      positional := true },
    { type := .tInt, flags := ["--three".toList], many := false,
      default := .vMissing, valid := Option.none, name := "three".toList,
      positional := true } ]

/-- Single optional-free `str` argument (C1 counterexample). -/
def c1specs : List ArgSpec := [ { type := .tStr, name := "a".toList } ]

def c1schema : List Argument :=
  [ { type := .tStr, flags := ["--a".toList, "-a".toList], many := false,
      default := .vMissing, valid := Option.none, name := "a".toList,
      positional := true } ]

/-- Single required `int` argument (C1 witness, C10 witness). -/
def c10specs : List ArgSpec := [ { type := .tInt, name := "n".toList } ]

def c10schema : List Argument :=
  [ { type := .tInt, flags := ["--n".toList, "-n".toList], many := false,
      default := .vMissing, valid := Option.none, name := "n".toList,
      positional := true } ]

/-- Validator of the C2 counterexample: accepts only positive ints. -/
def c2valid : Value → Bool
  | .sc (.i n) => 0 < n
  | _ => false

def c2specs : List ArgSpec :=
  [ { type := .tInt, name := "a".toList },
    { type := .tInt, valid := some c2valid, name := "b".toList } ]

def c2schema : List Argument :=
  [ { type := .tInt, flags := ["--a".toList, "-a".toList], many := false,
      default := .vMissing, valid := Option.none, name := "a".toList,
      positional := true },
    { type := .tInt, flags := ["--b".toList, "-b".toList], many := false,
      default := .vMissing, valid := some c2valid, name := "b".toList,
      positional := true } ]

/-- Two `many` positional-eligible arguments with defaults
(C4 counterexample: both pass `validate_config`). -/
def c4specs : List ArgSpec :=
  [ { type := .tInt, many := true, default := .vList [.i 7], name := "a".toList },
    { type := .tInt, many := true, default := .vList [.i 8], name := "b".toList } ]

def c4schema : List Argument :=
  [ { type := .tInt, flags := ["--a".toList, "-a".toList], many := true,
      default := .vList [.i 7], valid := Option.none, name := "a".toList,
      positional := true },
    { type := .tInt, flags := ["--b".toList, "-b".toList], many := true,
      default := .vList [.i 8], valid := Option.none, name := "b".toList,
      positional := true } ]

/-- A many-`str` argument (C5). -/
def c5arg : Argument :=
  { type := .tStr, flags := ["--texts".toList, "-t".toList], many := true,
    default := .vList [], valid := Option.none, name := "texts".toList,
    positional := true }

/-- A boolean switch `x` with `default=False` (C6). -/
def c6specs : List ArgSpec :=
  [ { type := .tBool, default := .sc (.b false), name := "x".toList } ]

def c6schema : List Argument :=
  [ { type := .tBool, flags := ["--x".toList, "-x".toList], many := false,
      default := .sc (.b false), valid := Option.none, name := "x".toList,
      positional := true } ]

/-- Validator of the C9 counterexample (rejects everything). -/
def c9valid : Value → Bool := fun _ => false

/-- An `int` argument whose default `None` fails both the `int` cast and the
validator, yet passes declaration because `_validate_default` exempts
`None`. -/
def c9spec : ArgSpec :=
  { type := .tInt, default := .vNone, valid := some c9valid, name := "num".toList }

def c9arg : Argument :=
  { type := .tInt, flags := ["--num".toList, "-n".toList], many := false,
    default := .vNone, valid := some c9valid, name := "num".toList,
    positional := true }

/-- Declaration whose (non-`None`) default fails the `int` cast
(C9 witness). -/
def c9witSpec : ArgSpec :=
  { type := .tInt, default := .sc (.s "abc".toList), name := "bad".toList }


/-- Total number of tokens assigned by a positional-kwargs result. -/
def bucketSizes (pk : List (Str × List Str)) : Nat :=
  (pk.map (fun p => p.2.length)).sum


/-- The value shapes the decoders produce for an argument: a nonempty list
of scalars of the argument's type for `many`, a single such scalar
otherwise. -/
def wellTypedV (a : Argument) (v : Value) : Prop :=
  if a.many then ∃ xs, v = .vList xs ∧ xs ≠ [] ∧ ∀ x ∈ xs, scalarTy x = a.type
  else ∃ x, v = .sc x ∧ scalarTy x = a.type


/-- The value `cmd` reads for an argument (present in the store on every
path where this is used). -/
def valOf (st : Store) (a : Argument) : Value :=
  (aGet st a.name).getD .vMissing

/-- The command-line fragment `Argument.cmd` renders in long-flag form. -/
def fragStr (a : Argument) (v : Value) : Str :=
  if a.isSwitch then
    if truthy v then pickFlag false a.flags else []
  else if a.encode v = [] then []
  else pickFlag false a.flags ++ ' ' :: a.encode v

/-- The token bucket re-collection assigns to an argument from its rendered
fragment. -/
def bucketToks (a : Argument) (v : Value) : List Str :=
  if a.isSwitch then [] else valToks a v

/-- A token that passes unchanged through quoting, tokenizing and flag
recognition boundaries. -/
def goodTok (t : Str) : Prop :=
  t ≠ [] ∧ ∀ c ∈ t, isWs c = false ∧ c ≠ '"'


/-- One argument's contribution to the re-collected kwargs dict of its own
rendered command line. -/
def bucketStep (vf : Argument → Value) (k : KW) (a : Argument) : KW :=
  if fragToks a (vf a) = [] then k else aSet k a.name (bucketToks a (vf a))


/-!
## Theorems

First the concrete scenario computations and counterexamples, then the
general lemma library, then the remaining claim theorems.
-/

/-- C3: the schema `one: int` (required), `two: int many` (required),
`three: int` (required) parses the tokens `1 2 3 4 5` to
`one=1, two=[2,3,4], three=5`: `one` is taken greedily from the left,
`three` from the right, and the single remaining `many` descriptor receives
the middle tokens. -/
theorem claimC3positional :
    buildSchema c3specs = .ok c3schema ∧
    runParseList c3schema [] (toksOf ["1", "2", "3", "4", "5"]) =
      .ok [("one".toList, .sc (.i 1)),
           ("two".toList, .vList [.i 2, .i 3, .i 4]),
           ("three".toList, .sc (.i 5))] :=
  ⟨rfl, rfl⟩

/-- C1 counterexample: for the schema with the single `str` argument `a`,
the accepted line `--a "a b"` parses to `a = "a b"`, but the canonical
rendering `command()` emits `--a a b` without re-quoting, which re-parses to
`a = "a"`: `parse(command(parse(L))) ≠ parse(L)`. -/
theorem claimC1roundtripCex :
    buildSchema c1specs = .ok c1schema ∧
    normalizeLine [] "--a \"a b\"".toList = .ok (toksOf ["--a", "a b"]) ∧
    runParseList c1schema [] (toksOf ["--a", "a b"]) =
      .ok [("a".toList, .sc (.s "a b".toList))] ∧
    commandOf c1schema [("a".toList, .sc (.s "a b".toList))] false =
      some "--a a b".toList ∧
    callParse c1schema [] [("a".toList, .sc (.s "a b".toList))] "--a a b".toList =
      .ok [("a".toList, .sc (.s "a".toList))] ∧
    Value.sc (.s "a".toList) ≠ Value.sc (.s "a b".toList) :=
  ⟨rfl, rfl, rfl, rfl, rfl, by decide⟩

/-- C2 counterexample: schema `a: int`, `b: int` with a validator accepting
only positive values. Parsing `--a 1 --b 0` raises a validation error, yet
the value store (empty before the call) now holds `a = 1`: the update is not
all-or-nothing, because `_update` assigns one argument at a time and the
custom validator only runs inside `__set__`. -/
theorem claimC2partialCex :
    buildSchema c2specs = .ok c2schema ∧
    runParseList c2schema [] (toksOf ["--a", "1", "--b", "0"]) =
      .err .validation [("a".toList, .sc (.i 1))] ∧
    ([("a".toList, Value.sc (.i 1))] : Store) ≠ ([] : Store) :=
  ⟨rfl, rfl, by decide⟩

/-- C4 counterexample: with two `many` positional-eligible descriptors
(which `validate_config` accepts), the leftover token `9` matches the final
`len(pos_arg_defs) == 1` guard of neither branch: the parse SUCCEEDS, both
arguments keep their defaults, and the token is silently dropped instead of
raising the too-many-positionals error. -/
theorem claimC4dropCex :
    buildSchema c4specs = .ok c4schema ∧
    runParseList c4schema [] (toksOf ["9"]) =
      .ok [("a".toList, .vList [.i 7]), ("b".toList, .vList [.i 8])] :=
  ⟨rfl, rfl⟩

/-- C5 counterexample: for a many-`str` argument, `encode(["a b", "c"])`
quote-joins to `"a b" c`, but `decode` whitespace-splits without honouring
quotes, producing `['"a', 'b"', 'c']` rather than `["a b", "c"]`. -/
theorem claimC5quoteCex :
    c5arg.decode (.str (c5arg.encode (.vList [.s "a b".toList, .s "c".toList]))) =
      .ok (.vList [.s "\"a".toList, .s "b\"".toList, .s "c".toList]) ∧
    Value.vList [.s "\"a".toList, .s "b\"".toList, .s "c".toList] ≠
      Value.vList [.s "a b".toList, .s "c".toList] :=
  ⟨rfl, by decide⟩

/-- C6 counterexample: for the switch `x` (`bool`, `default=False`), the
line `-x false` parses successfully to `x = False`: the token after the
flag IS collected into the flag's bucket and decoded as the switch's value,
so the flag does consume a following token (and the claimed `x = True` for
a line containing `-x` fails). -/
theorem claimC6consumeCex :
    buildSchema c6specs = .ok c6schema ∧
    runParseList c6schema [] (toksOf ["-x", "false"]) =
      .ok [("x".toList, .sc (.b false))] :=
  ⟨rfl, rfl⟩

/-- C7 counterexample: for `s = '"a\tb"'`, `split(s) = ['a\tb']`; joining
leaves the token bare (it contains no space, so `quotify` does not wrap it),
and re-splitting breaks it at the tab: `split(join(split(s))) = ['a','b']`. -/
theorem claimC7idemCex :
    parseSplit '"' "\"a\tb\"".toList = .ok ["a\tb".toList] ∧
    splitEncode '"' ["a\tb".toList] = "a\tb".toList ∧
    parseSplit '"' "a\tb".toList = .ok ["a".toList, "b".toList] ∧
    (["a".toList, "b".toList] : List Str) ≠ ["a\tb".toList] :=
  ⟨rfl, rfl, rfl, by decide⟩

/-- C9 counterexample: an `int` argument declared with `default=None` and a
validator that rejects everything: the default fails `_validate` (both the
`int` cast and the validator), yet `__init_subclass__` accepts the schema,
because `_validate_default` exempts `None` — no `ConfigError` at declaration
time. -/
theorem claimC9noneCex :
    buildSchema [c9spec] = .ok [c9arg] ∧
    rawValidate c9spec.type c9spec.many c9spec.valid c9spec.default =
      .error .valueErr :=
  ⟨rfl, rfl⟩

/-! ### Tokenizer lemmas -/

theorem partitionC_spec (d : Char) (s : Str) :
    (∃ b a, partitionC d s = (b, true, a) ∧ s = b ++ d :: a ∧ d ∉ b) ∨
      (partitionC d s = (s, false, []) ∧ d ∉ s) := by
  induction s with
  | nil => exact Or.inr ⟨rfl, by simp⟩
  | cons c cs ih =>
    by_cases hc : c = d
    · exact Or.inl ⟨[], cs, by simp [partitionC, hc], by simp [hc], by simp⟩
    · rcases ih with ⟨b, a, he, hs, hb⟩ | ⟨he, hm⟩
      · refine Or.inl ⟨c :: b, a, ?_, by simp [hs], ?_⟩
        · simp [partitionC, hc, he]
        · simp only [List.mem_cons, not_or]
          exact ⟨fun e => hc e.symm, hb⟩
      · refine Or.inr ⟨by simp [partitionC, hc, he], ?_⟩
        simp only [List.mem_cons, not_or]
        exact ⟨fun e => hc e.symm, hm⟩

theorem partitionC_not_mem {d : Char} {s : Str} (h : d ∉ s) :
    partitionC d s = (s, false, []) := by
  rcases partitionC_spec d s with ⟨b, a, _, hseq, _⟩ | ⟨he, _⟩
  · exact absurd (hseq ▸ (by simp : d ∈ b ++ d :: a)) h
  · exact he

theorem partitionC_split {d : Char} {b : Str} (x : Str) (hb : d ∉ b) :
    partitionC d (b ++ d :: x) = (b, true, x) := by
  induction b with
  | nil => simp [partitionC]
  | cons c cs ih =>
    simp only [List.mem_cons, not_or] at hb
    have hc : ¬ c = d := fun e => hb.1 e.symm
    simp [partitionC, hc, ih hb.2]

theorem parseSplitF_fuel (d : Char) :
    ∀ f1 f2 : Nat, ∀ s : Str, s.length < f1 → s.length < f2 →
      parseSplitF d f1 s = parseSplitF d f2 s := by
  intro f1
  induction f1 with
  | zero => intro f2 s h1 _; exact absurd h1 (Nat.not_lt_zero _)
  | succ g1 ih =>
    intro f2 s h1 h2
    cases s with
    | nil => cases f2 with
      | zero => exact absurd h2 (Nat.not_lt_zero _)
      | succ _ => rfl
    | cons c cs =>
      cases f2 with
      | zero => exact absurd h2 (Nat.not_lt_zero _)
      | succ g2 =>
        rcases partitionC_spec d (c :: cs) with ⟨b, a, he, hs, _⟩ | ⟨he, _⟩
        · rcases partitionC_spec d a with ⟨b2, a2, he2, hs2, _⟩ | ⟨he2, _⟩
          · have hA : (c :: cs).length = b.length + a.length + 1 := by
              rw [hs]; simp only [List.length_append, List.length_cons]; omega
            have hB : a.length = b2.length + a2.length + 1 := by
              rw [hs2]; simp only [List.length_append, List.length_cons]; omega
            have l1 : a2.length < g1 := by
              simp only [List.length_cons] at h1 hA; omega
            have l2 : a2.length < g2 := by
              simp only [List.length_cons] at h2 hA; omega
            simp only [parseSplitF, he, he2, ih g2 a2 l1 l2]
          · simp only [parseSplitF, he, he2]
        · simp only [parseSplitF, he]

theorem parseSplitF_big {d : Char} {fuel : Nat} {s : Str} (h : s.length < fuel) :
    parseSplitF d fuel s = parseSplit d s :=
  parseSplitF_fuel d fuel (s.length + 1) s h (Nat.lt_succ_self _)

theorem parseSplit_no_delim {d : Char} {s : Str} (h : d ∉ s) :
    parseSplit d s = .ok (splitWs s) := by
  cases s with
  | nil => rfl
  | cons c cs =>
    show parseSplitF d (cs.length + 1 + 1) (c :: cs) = _
    simp only [parseSplitF, partitionC_not_mem h]

theorem parseSplit_unmatched {d : Char} {b a : Str} (hb : d ∉ b) (ha : d ∉ a) :
    parseSplit d (b ++ d :: a) = .error () := by
  obtain ⟨c, cs, hcc⟩ : ∃ c cs, b ++ d :: a = c :: cs := by
    cases b with
    | nil => exact ⟨_, _, rfl⟩
    | cons x xs => exact ⟨_, _, rfl⟩
  show parseSplitF d ((b ++ d :: a).length + 1) (b ++ d :: a) = _
  rw [hcc, show (c :: cs).length + 1 = cs.length + 1 + 1 from rfl]
  simp only [parseSplitF, ← hcc, partitionC_split a hb, partitionC_not_mem ha]

theorem parseSplit_found {d : Char} {b btw rest : Str} (hb : d ∉ b) (hw : d ∉ btw) :
    parseSplit d (b ++ d :: (btw ++ d :: rest)) =
      match parseSplit d rest with
      | .error e => .error e
      | .ok ts => .ok (splitWs b ++ btw :: ts) := by
  obtain ⟨c, cs, hcc⟩ : ∃ c cs, b ++ d :: (btw ++ d :: rest) = c :: cs := by
    cases b with
    | nil => exact ⟨_, _, rfl⟩
    | cons x xs => exact ⟨_, _, rfl⟩
  show parseSplitF d ((b ++ d :: (btw ++ d :: rest)).length + 1) _ = _
  rw [hcc, show (c :: cs).length + 1 = cs.length + 1 + 1 from rfl]
  have hfuel : rest.length < cs.length + 1 := by
    have hl : (c :: cs).length = b.length + (btw.length + rest.length + 1) + 1 := by
      rw [← hcc]; simp only [List.length_append, List.length_cons]; omega
    simp only [List.length_cons] at hl; omega
  simp only [parseSplitF, ← hcc, partitionC_split _ hb, partitionC_split _ hw,
    parseSplitF_big hfuel]

theorem parseSplit_error_iff (d : Char) (s : Str) :
    parseSplit d s = .error () ↔ s.count d % 2 = 1 := by
  have main : ∀ n : Nat, ∀ s : Str, s.length = n →
      (parseSplit d s = .error () ↔ s.count d % 2 = 1) := by
    intro n
    induction n using Nat.strong_induction_on with
    | _ n ih =>
      intro s hs
      rcases partitionC_spec d s with ⟨b, a, _, hseq, hb⟩ | ⟨_, hm⟩
      · rcases partitionC_spec d a with ⟨b2, a2, _, hseq2, hb2⟩ | ⟨_, hm2⟩
        · subst hseq2
          subst hseq
          have hcb : b.count d = 0 := List.count_eq_zero.mpr hb
          have hcb2 : b2.count d = 0 := List.count_eq_zero.mpr hb2
          have hcount : (b ++ d :: (b2 ++ d :: a2)).count d = a2.count d + 2 := by
            simp [List.count_append, List.count_cons, hcb, hcb2]
          have hlt : a2.length < n := by
            subst hs
            simp only [List.length_append, List.length_cons]; omega
          have hrec := ih a2.length hlt a2 rfl
          rw [parseSplit_found hb hb2, hcount]
          rcases hps : parseSplit d a2 with e | ts
          · have h1 : a2.count d % 2 = 1 := hrec.mp (by rw [hps])
            try rw [hps]
            constructor
            · intro _; omega
            · intro _; rfl
          · have h0 : ¬ a2.count d % 2 = 1 := by
              intro hh
              have hcon := hrec.mpr hh
              rw [hps] at hcon
              exact absurd hcon (by simp)
            try rw [hps]
            constructor
            · intro hcon; exact absurd hcon (by simp)
            · intro hh; exfalso; omega
        · subst hseq
          rw [parseSplit_unmatched hb hm2]
          have hcb : b.count d = 0 := List.count_eq_zero.mpr hb
          have hca : a.count d = 0 := List.count_eq_zero.mpr hm2
          have hcount : (b ++ d :: a).count d = 1 := by
            simp [List.count_append, List.count_cons, hcb, hca]
          rw [hcount]
          simp
      · rw [parseSplit_no_delim hm]
        have hc0 : s.count d = 0 := List.count_eq_zero.mpr hm
        rw [hc0]
        simp
  exact main s.length s rfl

/-! ### Whitespace-split lemmas -/

theorem splitWsA_word : ∀ w : Str, (∀ c ∈ w, isWs c = false) →
    ∀ cur rest : Str, splitWsA cur (w ++ rest) = splitWsA (w.reverse ++ cur) rest := by
  intro w
  induction w with
  | nil => intro _ cur rest; simp
  | cons c cs ih =>
    intro hw cur rest
    have hc : isWs c = false := hw c (List.mem_cons_self c cs)
    have hcs : ∀ x ∈ cs, isWs x = false := fun x hx => hw x (List.mem_cons_of_mem _ hx)
    simp only [List.cons_append, splitWsA, hc, Bool.false_eq_true, if_false]
    have hstep : splitWsA (c :: cur) (cs ++ rest) = splitWsA (cs.reverse ++ (c :: cur)) rest :=
      ih hcs (c :: cur) rest
    rw [show cs.append rest = cs ++ rest from rfl, hstep]
    congr 1
    simp

theorem splitWs_word {w : Str} (hne : w ≠ []) (hw : ∀ c ∈ w, isWs c = false) :
    splitWs w = [w] := by
  have h0 : w = w ++ [] := by simp
  rw [splitWs, h0, splitWsA_word w hw [] []]
  have h1 : ¬ w.reverse ++ [] = [] := by simp [hne]
  simp only [splitWsA, h1, if_neg]
  simp

theorem splitWs_word_cons {w : Str} (hne : w ≠ []) (hw : ∀ c ∈ w, isWs c = false)
    (rest : Str) : splitWs (w ++ ' ' :: rest) = w :: splitWs rest := by
  rw [splitWs, splitWsA_word w hw [] (' ' :: rest)]
  have h1 : isWs ' ' = true := by decide
  have h2 : ¬ w.reverse ++ [] = [] := by simp [hne]
  simp only [splitWsA, h1, if_pos, h2, if_neg]
  simp [splitWs]

theorem splitWs_ws_cons {c : Char} (hc : isWs c = true) (rest : Str) :
    splitWs (c :: rest) = splitWs rest := by
  simp [splitWs, splitWsA, hc]

theorem intercalate_cons2 (w w2 : Str) (r2 : List Str) :
    List.intercalate [' '] (w :: w2 :: r2) = w ++ ' ' :: List.intercalate [' '] (w2 :: r2) := by
  simp [List.intercalate, List.intersperse]

theorem splitWs_intercalate : ∀ ws : List Str,
    (∀ w ∈ ws, w ≠ [] ∧ ∀ c ∈ w, isWs c = false) →
    splitWs (List.intercalate [' '] ws) = ws := by
  intro ws
  induction ws with
  | nil => intro _; rfl
  | cons w rest ih =>
    intro h
    have h1 := h w (by simp)
    cases rest with
    | nil =>
      rw [show List.intercalate [' '] [w] = w by simp [List.intercalate]]
      exact splitWs_word h1.1 h1.2
    | cons w2 r2 =>
      rw [intercalate_cons2, splitWs_word_cons h1.1 h1.2,
        ih (fun x hx => h x (by simp [hx]))]

/-! ### Joining and re-splitting token lists -/

theorem parseSplit_cons_word {d : Char} {w : Str} (hd : d ≠ ' ') (hwne : w ≠ [])
    (hwws : ∀ c ∈ w, isWs c = false) (hwd : d ∉ w) (s : Str) :
    parseSplit d (w ++ ' ' :: s) = (parseSplit d s).map (fun ts => w :: ts) := by
  rcases partitionC_spec d s with ⟨b, a, _, hseq, hb⟩ | ⟨_, hm⟩
  · subst hseq
    have hnb : d ∉ w ++ ' ' :: b := by
      simp only [List.mem_append, List.mem_cons, not_or]
      exact ⟨hwd, hd, hb⟩
    rcases partitionC_spec d a with ⟨b2, a2, _, hseq2, hb2⟩ | ⟨_, hm2⟩
    · subst hseq2
      have e1 : w ++ ' ' :: (b ++ d :: (b2 ++ d :: a2)) =
          (w ++ ' ' :: b) ++ d :: (b2 ++ d :: a2) := by simp
      rw [e1, parseSplit_found hnb hb2, parseSplit_found hb hb2,
        splitWs_word_cons hwne hwws]
      cases hps : parseSplit d a2 with
      | error e => simp [Except.map]
      | ok ts => simp [Except.map]
    · have e1 : w ++ ' ' :: (b ++ d :: a) = (w ++ ' ' :: b) ++ d :: a := by simp
      rw [e1, parseSplit_unmatched hnb hm2, parseSplit_unmatched hb hm2]
      rfl
  · have hnall : d ∉ w ++ ' ' :: s := by
      simp only [List.mem_append, List.mem_cons, not_or]
      exact ⟨hwd, hd, hm⟩
    rw [parseSplit_no_delim hnall, parseSplit_no_delim hm,
      splitWs_word_cons hwne hwws]
    rfl

theorem parseSplit_space_cons {d : Char} (hd : d ≠ ' ') (s : Str) :
    parseSplit d (' ' :: s) = parseSplit d s := by
  rcases partitionC_spec d s with ⟨b, a, _, hseq, hb⟩ | ⟨_, hm⟩
  · subst hseq
    have hnb : d ∉ ' ' :: b := by
      simp only [List.mem_cons, not_or]
      exact ⟨hd, hb⟩
    rcases partitionC_spec d a with ⟨b2, a2, _, hseq2, hb2⟩ | ⟨_, hm2⟩
    · subst hseq2
      have e1 : ' ' :: (b ++ d :: (b2 ++ d :: a2)) =
          (' ' :: b) ++ d :: (b2 ++ d :: a2) := rfl
      rw [e1, parseSplit_found hnb hb2, parseSplit_found hb hb2,
        splitWs_ws_cons (by decide)]
    · have e1 : ' ' :: (b ++ d :: a) = (' ' :: b) ++ d :: a := rfl
      rw [e1, parseSplit_unmatched hnb hm2, parseSplit_unmatched hb hm2]
  · have hnall : d ∉ ' ' :: s := by
      simp only [List.mem_cons, not_or]
      exact ⟨hd, hm⟩
    rw [parseSplit_no_delim hnall, parseSplit_no_delim hm,
      splitWs_ws_cons (by decide)]

theorem parseSplit_splitEncode {d : Char} (hd : d ≠ ' ') :
    ∀ ts : List Str,
      (∀ t ∈ ts, d ∉ t ∧ (' ' ∈ t ∨ t = [] ∨ ∀ c ∈ t, isWs c = false)) →
      parseSplit d (splitEncode d ts) = .ok ts := by
  intro ts
  induction ts with
  | nil => intro _; rfl
  | cons t rest ih =>
    intro h
    have ht := h t (by simp)
    have hrest : ∀ x ∈ rest, d ∉ x ∧ (' ' ∈ x ∨ x = [] ∨ ∀ c ∈ x, isWs c = false) :=
      fun x hx => h x (by simp [hx])
    by_cases hq : t = [] ∨ ' ' ∈ t
    · -- quotified token
      have hquot : quotify d ' ' t = d :: t ++ [d] := by
        unfold quotify
        rw [if_pos]
        rcases hq with h1 | h2
        · exact Or.inl h1
        · exact Or.inr h2
      cases rest with
      | nil =>
        have e1 : splitEncode d [t] = [] ++ d :: (t ++ d :: []) := by
          simp [splitEncode, List.intercalate, hquot]
        rw [e1, parseSplit_found (by simp) ht.1]
        rfl
      | cons t2 r2 =>
        have e1 : splitEncode d (t :: t2 :: r2) =
            [] ++ d :: (t ++ d :: (' ' :: splitEncode d (t2 :: r2))) := by
          simp only [splitEncode, List.map_cons]
          rw [intercalate_cons2, hquot]
          simp [splitEncode]
        rw [e1, parseSplit_found (by simp) ht.1, parseSplit_space_cons hd,
          ih hrest]
        rfl
    · -- bare token
      push_neg at hq
      have hne : t ≠ [] := hq.1
      have hnsp : ' ' ∉ t := hq.2
      have hws : ∀ c ∈ t, isWs c = false := by
        rcases ht.2 with h1 | h2 | h3
        · exact absurd h1 hnsp
        · exact absurd h2 hne
        · exact h3
      have hquot : quotify d ' ' t = t := by
        unfold quotify
        rw [if_neg]
        simp only [not_or]
        exact ⟨hne, hnsp⟩
      cases rest with
      | nil =>
        have e1 : splitEncode d [t] = t := by
          simp [splitEncode, List.intercalate, hquot]
        rw [e1, parseSplit_no_delim ht.1, splitWs_word hne hws]
      | cons t2 r2 =>
        have e1 : splitEncode d (t :: t2 :: r2) = t ++ ' ' :: splitEncode d (t2 :: r2) := by
          simp only [splitEncode, List.map_cons]
          rw [intercalate_cons2, hquot]
        rw [e1, parseSplit_cons_word hd hne hws ht.1, ih hrest]
        rfl

theorem splitWsA_chars : ∀ s cur : Str, ∀ t ∈ splitWsA cur s, ∀ c ∈ t, c ∈ cur ∨ c ∈ s := by
  intro s
  induction s with
  | nil =>
    intro cur t htm c hc
    by_cases hcur : cur = []
    · simp [splitWsA, hcur] at htm
    · simp only [splitWsA, if_neg hcur] at htm
      simp only [List.mem_singleton] at htm
      subst htm
      exact Or.inl (List.mem_reverse.mp hc)
  | cons c0 cs ih =>
    intro cur t htm c hc
    by_cases h0 : isWs c0 = true
    · simp only [splitWsA, h0, if_pos] at htm
      by_cases hcur : cur = []
      · rw [if_pos hcur] at htm
        rcases ih [] t htm c hc with h | h
        · simp at h
        · exact Or.inr (List.mem_cons_of_mem _ h)
      · rw [if_neg hcur] at htm
        rcases List.mem_cons.mp htm with h | h
        · subst h
          exact Or.inl (List.mem_reverse.mp hc)
        · rcases ih [] t h c hc with h2 | h2
          · simp at h2
          · exact Or.inr (List.mem_cons_of_mem _ h2)
    · simp only [splitWsA, h0, Bool.false_eq_true, if_false] at htm
      rcases ih (c0 :: cur) t htm c hc with h | h
      · rcases List.mem_cons.mp h with h2 | h2
        · subst h2
          exact Or.inr (List.mem_cons_self _ _)
        · exact Or.inl h2
      · exact Or.inr (List.mem_cons_of_mem _ h)

theorem splitWs_chars {s t : Str} (htm : t ∈ splitWs s) {c : Char} (hc : c ∈ t) :
    c ∈ s := by
  rcases splitWsA_chars s [] t htm c hc with h | h
  · simp at h
  · exact h

theorem parseSplit_tokens {d : Char} (s : Str) {ts : List Str}
    (hok : parseSplit d s = .ok ts) : ∀ t ∈ ts, d ∉ t := by
  have main : ∀ n : Nat, ∀ s : Str, s.length = n → ∀ ts : List Str,
      parseSplit d s = .ok ts → ∀ t ∈ ts, d ∉ t := by
    intro n
    induction n using Nat.strong_induction_on with
    | _ n ih =>
      intro s hs ts hok t htm hd
      rcases partitionC_spec d s with ⟨b, a, _, hseq, hb⟩ | ⟨_, hm⟩
      · rcases partitionC_spec d a with ⟨b2, a2, _, hseq2, hb2⟩ | ⟨_, hm2⟩
        · subst hseq2
          subst hseq
          rw [parseSplit_found hb hb2] at hok
          cases hps : parseSplit d a2 with
          | error e => rw [hps] at hok; exact absurd hok (by simp)
          | ok ts2 =>
            rw [hps] at hok
            have hts : ts = splitWs b ++ b2 :: ts2 := by
              have := hok
              simp only [Except.ok.injEq] at this
              exact this.symm
            subst hts
            rcases List.mem_append.mp htm with h | h
            · exact hb (splitWs_chars h hd)
            · rcases List.mem_cons.mp h with h2 | h2
              · subst h2; exact hb2 hd
              · have hlt : a2.length < n := by
                  subst hs
                  simp only [List.length_append, List.length_cons]; omega
                exact ih a2.length hlt a2 rfl ts2 hps t h2 hd
        · subst hseq
          rw [parseSplit_unmatched hb hm2] at hok
          exact absurd hok (by simp)
      · rw [parseSplit_no_delim hm] at hok
        have hts : ts = splitWs s := by
          simp only [Except.ok.injEq] at hok
          exact hok.symm
        subst hts
        exact hm (splitWs_chars htm hd)
  exact fun t htm => main s.length s rfl ts hok t htm

/-- `_decode` for a many-`str` argument maps every token to itself. -/
theorem mapM_pdecodeS_str {a : Argument} (hty : a.type = .tStr) :
    ∀ l : List Str, l.mapM a.pdecodeS = .ok (l.map .s) := by
  intro l
  induction l with
  | nil => rfl
  | cons x xs ih =>
    have hx : a.pdecodeS x = .ok (.s x) := by
      simp [Argument.pdecodeS, hty]
    rw [List.mapM_cons, hx, ih]
    rfl

/-- C7 (amended): `split(join(split(s))) == split(s)` holds for every line
whose tokens each either contain a space (and so are re-quoted on joining)
or contain no whitespace at all; a token holding a non-space whitespace
character but no space is emitted bare and re-splits differently (see the
counterexample). -/
theorem claimC7idemAmended (s : Str) (ts : List Str)
    (hok : parseSplit '"' s = .ok ts)
    (hcond : ∀ t ∈ ts, (∃ c ∈ t, isWs c = true ∧ c ≠ ' ') → ' ' ∈ t) :
    parseSplit '"' (splitEncode '"' ts) = .ok ts := by
  apply parseSplit_splitEncode (by decide)
  intro t htm
  refine ⟨parseSplit_tokens s hok t htm, ?_⟩
  by_cases hsp : ' ' ∈ t
  · exact Or.inl hsp
  · by_cases hte : t = []
    · exact Or.inr (Or.inl hte)
    · refine Or.inr (Or.inr ?_)
      intro c hc
      by_contra hws
      have hw : isWs c = true := by
        cases h : isWs c
        · exact absurd h hws
        · rfl
      have hcne : c ≠ ' ' := fun e => hsp (e ▸ hc)
      exact hsp (hcond t htm ⟨c, hc, hw, hcne⟩)

theorem claimC7idemWitness :
    parseSplit '"' (splitEncode '"' ["a".toList, "b c".toList, "d".toList]) =
      .ok ["a".toList, "b c".toList, "d".toList] :=
  claimC7idemAmended "a \"b c\" d".toList _ (by rfl) (by decide)

/-- C5 (amended): for a many-`str` argument, `decode(encode(vs)) == vs`
holds whenever `vs` is nonempty and every element is nonempty and free of
whitespace; an element containing a space is quoted by `encode` but split
apart again by `decode`'s plain whitespace split (see the counterexample). -/
theorem claimC5quoteAmended (a : Argument) (vs : List Str)
    (hty : a.type = .tStr) (hm : a.many = true) (hne : vs ≠ [])
    (hvs : ∀ v ∈ vs, v ≠ [] ∧ ∀ c ∈ v, isWs c = false) :
    a.decode (.str (a.encode (.vList (vs.map .s)))) = .ok (.vList (vs.map .s)) := by
  have hpe : (vs.map Scalar.s).map a.pencodeS = vs := by
    rw [List.map_map]
    have hcong : ∀ v ∈ vs, (a.pencodeS ∘ Scalar.s) v = id v := by
      intro v _
      simp [Function.comp, Argument.pencodeS, hty, pyStrS]
    rw [List.map_congr_left hcong, List.map_id]
  have hquot : vs.map (quotify '"' ' ') = vs.map id := by
    apply List.map_congr_left
    intro v hv
    have hv' := hvs v hv
    have hguard : ¬ (v = [] ∨ ' ' ∈ v) := by
      simp only [not_or]
      refine ⟨hv'.1, fun hsp => ?_⟩
      have hcw := hv'.2 ' ' hsp
      simp [isWs] at hcw
    unfold quotify
    rw [if_neg hguard]
    rfl
  have henc : a.encode (.vList (vs.map .s)) = List.intercalate [' '] vs := by
    unfold Argument.encode
    rw [if_neg (by simp), if_pos hm]
    show splitEncode '"' ((vs.map Scalar.s).map a.pencodeS) = _
    rw [hpe]
    unfold splitEncode
    rw [hquot, List.map_id]
  rw [henc]
  unfold Argument.decode
  rw [if_pos hm]
  show (if splitWs (List.intercalate [' '] vs) = [] then Except.ok a.default
    else ((splitWs (List.intercalate [' '] vs)).mapM a.pdecodeS).map .vList) = _
  rw [splitWs_intercalate vs hvs, if_neg hne, mapM_pdecodeS_str hty]
  rfl

theorem claimC5quoteWitness :
    c5arg.decode (.str (c5arg.encode (.vList (["hello".toList, "bye".toList].map .s)))) =
      .ok (.vList (["hello".toList, "bye".toList].map .s)) :=
  claimC5quoteAmended c5arg ["hello".toList, "bye".toList] rfl rfl (by decide)
    (by decide)

/-- C8: `normalize` (and hence any parse call) fails with the unbalanced-
quote error exactly when the line holds an odd number of quote characters,
and when it fails the store is untouched — tokenizing happens before any
argument parsing. -/
theorem claimC8unbalanced (schema : List Argument) (entry : List Str) (st : Store)
    (line : Str) :
    (normalizeLine entry line = .error .unbalanced ↔ line.count '"' % 2 = 1) ∧
    (normalizeLine entry line = .error .unbalanced →
      callParse schema entry st line = .err .unbalanced st) := by
  constructor
  · unfold normalizeLine
    cases hps : parseSplit '"' line with
    | error e =>
      cases e
      constructor
      · intro _
        exact (parseSplit_error_iff '"' line).mp hps
      · intro _
        rfl
    | ok ts =>
      constructor
      · intro h
        exact absurd h (by simp)
      · intro h
        have hodd := (parseSplit_error_iff '"' line).mpr h
        rw [hps] at hodd
        exact absurd hodd (by simp)
  · intro h
    unfold callParse
    rw [h]

theorem claimC8unbalancedWitness :
    callParse [] [] [] "ab\"".toList = .err .unbalanced [] :=
  (claimC8unbalanced [] [] [] "ab\"".toList).2
    ((claimC8unbalanced [] [] [] "ab\"".toList).1.mpr (by decide))

/-- C2 (amended): an error raised while tokenizing, or while collecting and
decoding values (the `parse_list` comprehension that Python evaluates in
full before `update` runs), leaves the value store unchanged; the
counterexample shows that a validation error during the update phase can
instead leave a prefix of the arguments updated. -/
theorem claimC2partialAmended (schema : List Argument) (entry : List Str) (st : Store)
    (toks : List Str) (line : Str) :
    (∀ e, parseListCore schema toks = .error e → runParseList schema st toks = .err e st) ∧
    (∀ e, normalizeLine entry line = .error e → callParse schema entry st line = .err e st) := by
  constructor
  · intro e h
    unfold runParseList
    rw [h]
  · intro e h
    unfold callParse
    rw [h]

theorem claimC2partialWitness :
    runParseList c10schema [("z".toList, Value.vNone)] [] =
      .err .validation [("z".toList, Value.vNone)] :=
  (claimC2partialAmended c10schema [] [("z".toList, Value.vNone)] [] []).1
    .validation (by rfl)

/-- C9 (amended): a descriptor whose default is neither `None` nor `MISSING`
and fails its own cast or validator always raises `ConfigError` during
`validate_config` (i.e. at class-declaration time); `None` defaults are
exempt (see the counterexample). -/
theorem claimC9failFastAmended (spec : ArgSpec) (existing : List Argument)
    (hname : ¬ (spec.name = "help".toList ∨ spec.name = "gui".toList))
    (hus : ¬ spec.name.head? = some '_')
    (hnn : spec.default ≠ .vNone) (hnm : spec.default ≠ .vMissing)
    (hfail : exIsOk (rawValidate spec.type spec.many spec.valid spec.default) = false) :
    validateConfig spec existing = .error .config := by
  have hd : validateDefault spec = .error .config := by
    unfold validateDefault
    rw [if_neg (by rintro (h | h); exacts [hnn h, hnm h])]
    cases hrv : rawValidate spec.type spec.many spec.valid spec.default with
    | ok v => rw [hrv] at hfail; exact absurd hfail (by simp [exIsOk])
    | error e => rfl
  unfold validateConfig
  rw [if_neg hname, if_neg hus, hd]

theorem claimC9failFastWitness :
    validateConfig c9witSpec [] = .error .config :=
  claimC9failFastAmended c9witSpec [] (by decide) (by decide) (by decide) (by decide)
    (by rfl)

/-! ### Store access lemmas -/

theorem aGet_aSet_same {β : Type} (l : List (Str × β)) (n : Str) (v : β) :
    aGet (aSet l n v) n = some v := by
  induction l with
  | nil => simp [aSet, aGet]
  | cons p rest ih =>
    obtain ⟨k, w⟩ := p
    by_cases hk : k = n
    · simp [aSet, hk, aGet]
    · simp [aSet, hk, aGet, ih]

theorem aGet_aSet_ne {β : Type} (l : List (Str × β)) (n m : Str) (v : β)
    (h : m ≠ n) : aGet (aSet l n v) m = aGet l m := by
  induction l with
  | nil =>
    have hnm : ¬ n = m := fun e => h e.symm
    simp [aSet, aGet, hnm]
  | cons p rest ih =>
    obtain ⟨k, w⟩ := p
    by_cases hk : k = n
    · subst hk
      have hkm : ¬ k = m := fun e => h e.symm
      simp [aSet, aGet, hkm]
    · simp [aSet, hk, aGet, ih]

theorem getVal_store {a : Argument} {st : Store} {v : Value} {st' : Store}
    (h : a.getVal st = .ok (v, st')) :
    st' = st ∨ st' = aSet st a.name a.default := by
  unfold Argument.getVal at h
  cases hg : aGet st a.name with
  | some w =>
    rw [hg] at h
    simp only [Except.ok.injEq, Prod.mk.injEq] at h
    exact Or.inl h.2.symm
  | none =>
    rw [hg] at h
    by_cases hd : a.default ≠ .vMissing
    · rw [if_pos hd] at h
      simp only [Except.ok.injEq, Prod.mk.injEq] at h
      exact Or.inr h.2.symm
    · rw [if_neg hd] at h
      exact absurd h (by simp)

theorem cmdFragment_store {a : Argument} {st : Store} {short : Bool} {c : Str}
    {st' : Store} (h : a.cmdFragment st short = .ok (c, st')) :
    st' = st ∨ st' = aSet st a.name a.default := by
  unfold Argument.cmdFragment at h
  split at h
  next e heq => exact absurd h (by simp)
  next v st1 heq =>
    have h1 : st' = st1 := by
      by_cases hs : a.isSwitch = true
      · rw [if_pos hs] at h
        by_cases ht : truthy v = true
        · rw [if_pos ht] at h
          simp only [Except.ok.injEq, Prod.mk.injEq] at h
          exact h.2.symm
        · rw [if_neg ht] at h
          simp only [Except.ok.injEq, Prod.mk.injEq] at h
          exact h.2.symm
      · rw [if_neg hs] at h
        by_cases he : a.encode v = []
        · rw [if_pos he] at h
          simp only [Except.ok.injEq, Prod.mk.injEq] at h
          exact h.2.symm
        · rw [if_neg he] at h
          by_cases hp : (short && a.positional) = true
          · rw [if_pos hp] at h
            simp only [Except.ok.injEq, Prod.mk.injEq] at h
            exact h.2.symm
          · rw [if_neg hp] at h
            simp only [Except.ok.injEq, Prod.mk.injEq] at h
            exact h.2.symm
    subst h1
    exact getVal_store heq

theorem aGet_initStore_required {schema : List Argument}
    (hnd : (schema.map (fun a => a.name)).Nodup) {a : Argument} (ha : a ∈ schema)
    (hreq : a.default = .vMissing) : aGet (initStore schema) a.name = Option.none := by
  have hinj := List.inj_on_of_nodup_map hnd
  have hnames : ∀ b ∈ schema, b.default ≠ .vMissing → b.name ≠ a.name := by
    intro b hb hbd he
    exact hbd ((hinj hb ha he) ▸ hreq)
  have main : ∀ l : List Argument, (∀ b ∈ l, b.default ≠ .vMissing → b.name ≠ a.name) →
      ∀ acc : Store, aGet acc a.name = Option.none →
      aGet (l.foldl (fun st b =>
        if b.default = .vMissing then st else aSet st b.name b.default) acc) a.name =
        Option.none := by
    intro l
    induction l with
    | nil => intro _ acc hacc; exact hacc
    | cons b rest ih =>
      intro hl acc hacc
      simp only [List.foldl_cons]
      by_cases hd : b.default = .vMissing
      · rw [if_pos hd]
        exact ih (fun x hx => hl x (List.mem_cons_of_mem _ hx)) acc hacc
      · rw [if_neg hd]
        refine ih (fun x hx => hl x (List.mem_cons_of_mem _ hx)) _ ?_
        rw [aGet_aSet_ne _ _ _ _ (Ne.symm (hl b (List.mem_cons_self _ _) hd))]
        exact hacc
  exact main schema hnames [] rfl

/-- C10: if any declared argument is required (`default is MISSING`) and
has no stored value, `command()` returns `None`: reading the argument
raises `AttributeError`, which `command` swallows. In particular a freshly
constructed parser (store initialised from the defaults alone) with a
required argument has `command() == None`. -/
theorem claimC10commandNone :
    (∀ (schema : List Argument) (st : Store),
        (schema.map (fun a => a.name)).Nodup →
        (∃ a ∈ schema, a.default = .vMissing ∧ aGet st a.name = Option.none) →
        commandOf schema st false = Option.none) ∧
    (∀ schema : List Argument,
        (schema.map (fun a => a.name)).Nodup →
        (∃ a ∈ schema, a.default = .vMissing) →
        commandOf schema (initStore schema) false = Option.none) := by
  have main : ∀ (schema : List Argument) (st : Store) (short : Bool),
      (schema.map (fun a => a.name)).Nodup →
      (∃ a ∈ schema, a.default = .vMissing ∧ aGet st a.name = Option.none) →
      ∃ e, commandAux short schema st = .error e := by
    intro schema
    induction schema with
    | nil =>
      intro st short _ hex
      obtain ⟨a, ha, _⟩ := hex
      simp at ha
    | cons b rest ih =>
      intro st short hnd hex
      obtain ⟨a, ha, hreq, habs⟩ := hex
      rcases List.mem_cons.mp ha with hab | har
      · subst hab
        have hfrag : a.cmdFragment st short = .error .attributeErr := by
          simp [Argument.cmdFragment, Argument.getVal, habs, hreq]
        exact ⟨.attributeErr, by simp [commandAux, hfrag]⟩
      · cases hfrag : b.cmdFragment st short with
        | error e => exact ⟨e, by simp [commandAux, hfrag]⟩
        | ok p =>
          obtain ⟨c, st1⟩ := p
          have hnd2 : ¬ b.name ∈ rest.map (fun x => x.name) := by
            simp only [List.map_cons, List.nodup_cons] at hnd
            exact hnd.1
          have hne : a.name ≠ b.name :=
            fun he => hnd2 (he ▸ List.mem_map_of_mem (fun x => x.name) har)
          have habs1 : aGet st1 a.name = Option.none := by
            rcases cmdFragment_store hfrag with h | h
            · rw [h]
              exact habs
            · rw [h, aGet_aSet_ne _ _ _ _ hne]
              exact habs
          have hnd1 : (rest.map (fun a => a.name)).Nodup := by
            simp only [List.map_cons, List.nodup_cons] at hnd
            exact hnd.2
          obtain ⟨e, he⟩ := ih st1 short hnd1 ⟨a, har, hreq, habs1⟩
          exact ⟨e, by simp [commandAux, hfrag, he]⟩
  constructor
  · intro schema st hnd hex
    obtain ⟨e, he⟩ := main schema st false hnd hex
    simp [commandOf, he]
  · intro schema hnd hex
    obtain ⟨a, ha, hreq⟩ := hex
    obtain ⟨e, he⟩ := main schema (initStore schema) false hnd
      ⟨a, ha, hreq, aGet_initStore_required hnd ha hreq⟩
    simp [commandOf, he]

theorem claimC10commandNoneWitness :
    commandOf c10schema (initStore c10schema) false = Option.none :=
  claimC10commandNone.2 c10schema (by decide)
    ⟨{ type := .tInt, flags := ["--n".toList, "-n".toList], many := false,
       default := .vMissing, valid := Option.none, name := "n".toList,
       positional := true },
     List.mem_cons_self _ _, rfl⟩

/-! ### Positional-assignment loop lemmas -/

theorem bucketSizes_append (l1 l2 : List (Str × List Str)) :
    bucketSizes (l1 ++ l2) = bucketSizes l1 + bucketSizes l2 := by
  simp [bucketSizes]

theorem leftLoop_spec :
    ∀ (args : List Str) (defs : List Argument) ks args' defs',
      leftLoop args defs = .ok (ks, args', defs') →
      (bucketSizes ks + args'.length = args.length ∧
        (args' = [] ∨ ∃ d ds, defs' = d :: ds ∧ d.many = true) ∧
        ∃ front, defs = front ++ defs' ∧ ∀ d ∈ front, d.many = false) := by
  intro args
  induction args with
  | nil =>
    intro defs ks args' defs' h
    simp only [leftLoop, Except.ok.injEq, Prod.mk.injEq] at h
    obtain ⟨rfl, rfl, rfl⟩ := h
    exact ⟨by simp [bucketSizes], Or.inl rfl, [], by simp, by simp⟩
  | cons t ts ih =>
    intro defs ks args' defs' h
    cases defs with
    | nil => exact absurd h (by simp [leftLoop])
    | cons d ds =>
      by_cases hm : d.many = true
      · rw [show leftLoop (t :: ts) (d :: ds) = .ok ([], t :: ts, d :: ds) by
          simp [leftLoop, hm]] at h
        simp only [Except.ok.injEq, Prod.mk.injEq] at h
        obtain ⟨rfl, rfl, rfl⟩ := h
        exact ⟨by simp [bucketSizes], Or.inr ⟨d, ds, rfl, hm⟩, [], by simp, by simp⟩
      · have hL : leftLoop (t :: ts) (d :: ds) =
            match leftLoop ts ds with
            | .error e => .error e
            | .ok (ks0, args0, defs0) => .ok ((d.name, [t]) :: ks0, args0, defs0) := by
          simp [leftLoop, hm]
        cases hrec : leftLoop ts ds with
        | error e =>
          rw [hL, hrec] at h
          exact absurd h (by simp)
        | ok p =>
          obtain ⟨ks0, args0, defs0⟩ := p
          rw [hL, hrec] at h
          simp only [Except.ok.injEq, Prod.mk.injEq] at h
          obtain ⟨rfl, rfl, rfl⟩ := h
          obtain ⟨hs, hd, front0, hfr, hfm⟩ := ih ds ks0 args0 defs0 hrec
          refine ⟨?_, hd, d :: front0, by simp [hfr], ?_⟩
          · have hb : bucketSizes ((d.name, [t]) :: ks0) = 1 + bucketSizes ks0 := by
              simp [bucketSizes]
            rw [hb]
            simp only [List.length_cons]
            omega
          · intro x hx
            rcases List.mem_cons.mp hx with h | h
            · subst h
              simpa using hm
            · exact hfm x h

theorem rightLoop_spec {args : List Str} {defs : List Argument}
    {ks : List (Str × List Str)} {args' : List Str} {defs' : List Argument}
    (h : rightLoop args defs = .ok (ks, args', defs')) :
    bucketSizes ks + args'.length = args.length ∧
      (args' = [] ∨ ∃ d ds, defs' = ds ++ [d] ∧ d.many = true) ∧
      ∃ back, defs = defs' ++ back ∧ ∀ d ∈ back, d.many = false := by
  unfold rightLoop at h
  cases hL : leftLoop args.reverse defs.reverse with
  | error e => rw [hL] at h; exact absurd h (by simp)
  | ok p =>
    obtain ⟨ks0, ra, rd⟩ := p
    rw [hL] at h
    simp only [Except.ok.injEq, Prod.mk.injEq] at h
    obtain ⟨rfl, rfl, rfl⟩ := h
    obtain ⟨hs, hd, front, hfr, hfm⟩ := leftLoop_spec args.reverse defs.reverse ks0 ra rd hL
    refine ⟨?_, ?_, front.reverse, ?_, ?_⟩
    · simp only [List.length_reverse] at hs ⊢
      exact hs
    · rcases hd with h | ⟨d, ds, hdd, hmany⟩
      · exact Or.inl (by simp [h])
      · exact Or.inr ⟨d, ds.reverse, by simp [hdd], hmany⟩
    · have h2 := congrArg List.reverse hfr
      simp only [List.reverse_reverse, List.reverse_append] at h2
      exact h2
    · intro d hdm
      exact hfm d (List.mem_reverse.mp hdm)

theorem countMany_append (l1 l2 : List Argument) :
    countMany (l1 ++ l2) = countMany l1 + countMany l2 := by
  simp [countMany, List.countP_append]

theorem countMany_zero {l : List Argument} (h : ∀ d ∈ l, d.many = false) :
    countMany l = 0 := by
  apply List.countP_eq_zero.mpr
  intro a ha
  simp [h a ha]

/-- C4 (amended): when at most one positional-candidate descriptor has
`many` arity, no positional token is ever silently dropped: whenever
`get_positional_kwargs` succeeds, every token is assigned to some bucket
(leftover tokens with no descriptor left raise the too-many error instead).
The counterexample shows that with two `many` candidates the leftover is
silently discarded. -/
theorem claimC4leftoverAmended (schema : List Argument) (kw : KW) (posArgs : List Str)
    (hm : countMany (posCandidates schema kw) ≤ 1) (pk : List (Str × List Str))
    (hok : getPositionalKwargs schema kw posArgs = .ok pk) :
    bucketSizes pk = posArgs.length := by
  unfold getPositionalKwargs at hok
  cases hL : leftLoop posArgs (posCandidates schema kw) with
  | error e => rw [hL] at hok; exact absurd hok (by simp)
  | ok p1 =>
    obtain ⟨k1, args1, defs1⟩ := p1
    rw [hL] at hok
    dsimp only at hok
    cases hR : rightLoop args1 defs1 with
    | error e => rw [hR] at hok; exact absurd hok (by simp)
    | ok p2 =>
      obtain ⟨k2, args2, defs2⟩ := p2
      rw [hR] at hok
      dsimp only at hok
      obtain ⟨hs1, hd1, front, hfr, hfm⟩ := leftLoop_spec _ _ _ _ _ hL
      obtain ⟨hs2, hd2, back, hbk, hbm⟩ := rightLoop_spec hR
      rcases args2 with _ | ⟨t, ts⟩
      · simp only [Except.ok.injEq] at hok
        subst hok
        rw [bucketSizes_append]
        simp only [List.length_nil] at hs2
        omega
      · rcases defs2 with _ | ⟨d1, ds⟩
        · rcases hd2 with h | ⟨d, ds, hdd, _⟩
          · exact absurd h (by simp)
          · exact absurd hdd.symm (by simp)
        · rcases ds with _ | ⟨d2, ds2⟩
          · simp only [Except.ok.injEq] at hok
            subst hok
            rw [bucketSizes_append, bucketSizes_append]
            have hone : bucketSizes [(d1.name, t :: ts)] = ts.length + 1 := by
              simp [bucketSizes]
            rw [hone]
            simp only [List.length_cons] at hs2
            omega
          · exfalso
            have hargs1 : args1.length ≥ 1 := by
              simp only [List.length_cons] at hs2
              omega
            have hd1r : ∃ dm dsm, defs1 = dm :: dsm ∧ dm.many = true := by
              rcases hd1 with h | h
              · rw [h] at hargs1
                simp at hargs1
              · exact h
            obtain ⟨dm, dsm, hdefs1, hdmm⟩ := hd1r
            have hd2r : ∃ d ds, d1 :: d2 :: ds2 = ds ++ [d] ∧ d.many = true := by
              rcases hd2 with h | h
              · exact absurd h (by simp)
              · exact h
            obtain ⟨dl, dsl, hsplit, hdlm⟩ := hd2r
            have hd1m : d1.many = true := by
              rw [hdefs1] at hbk
              have : d1 = dm := by
                cases hbk
                rfl
              rw [this]
              exact hdmm
            have hdsl : ∃ rest2, dsl = d1 :: rest2 := by
              cases dsl with
              | nil =>
                exfalso
                simp only [List.nil_append] at hsplit
                have := congrArg List.length hsplit
                simp at this
              | cons x xs =>
                refine ⟨xs, ?_⟩
                simp only [List.cons_append] at hsplit
                injection hsplit with h1 h2
                rw [h1]
            obtain ⟨rest2, hdslr⟩ := hdsl
            have hcount2 : 2 ≤ countMany (d1 :: d2 :: ds2) := by
              rw [hsplit, countMany_append, hdslr]
              have hc1 : 1 ≤ countMany (d1 :: rest2) := by
                have : 0 < (d1 :: rest2).countP (fun a => a.many) :=
                  List.countP_pos_iff.mpr ⟨d1, List.mem_cons_self _ _, by simp [hd1m]⟩
                simpa [countMany] using this
              have hc2 : countMany [dl] = 1 := by
                simp [countMany, List.countP_singleton, hdlm]
              omega
            have hcand : countMany (posCandidates schema kw) =
                countMany (d1 :: d2 :: ds2) := by
              rw [hfr, countMany_append, countMany_zero hfm, hdefs1, ← hdefs1, hbk,
                countMany_append, countMany_zero hbm]
              omega
            omega

theorem claimC4leftoverWitness :
    bucketSizes [("one".toList, toksOf ["1"]), ("three".toList, toksOf ["5"]),
      ("two".toList, toksOf ["2", "3", "4"])] =
      (toksOf ["1", "2", "3", "4", "5"]).length :=
  claimC4leftoverAmended c3schema [] (toksOf ["1", "2", "3", "4", "5"]) (by decide)
    [("one".toList, toksOf ["1"]), ("three".toList, toksOf ["5"]),
      ("two".toList, toksOf ["2", "3", "4"])] (by rfl)

/-! ### Integer and boolean codec round trips -/

theorem natDigitsF_fuel : ∀ f1 f2 n : Nat, n < f1 → n < f2 →
    natDigitsF f1 n = natDigitsF f2 n := by
  intro f1
  induction f1 with
  | zero => intro f2 n h1 _; exact absurd h1 (Nat.not_lt_zero _)
  | succ g1 ih =>
    intro f2 n h1 h2
    cases f2 with
    | zero => exact absurd h2 (Nat.not_lt_zero _)
    | succ g2 =>
      simp only [natDigitsF]
      by_cases h : n < 10
      · simp [h]
      · rw [if_neg h, if_neg h, ih g2 (n / 10) (by omega) (by omega)]

theorem natDigits_eq (n : Nat) :
    natDigits n = if n < 10 then [digitChar n]
      else natDigits (n / 10) ++ [digitChar (n % 10)] := by
  show natDigitsF (n + 1) n = _
  by_cases h : n < 10
  · simp [natDigitsF, h]
  · simp only [natDigitsF, if_neg h]
    rw [natDigitsF_fuel n (n / 10 + 1) (n / 10) (by omega) (by omega)]
    rfl

theorem digitChar_props : ∀ d : Nat, d < 10 →
    ((digitChar d).isDigit = true ∧ isWs (digitChar d) = false ∧
      digitChar d ≠ '"' ∧ digitChar d ≠ '-' ∧ digitChar d ≠ '+' ∧
      digitChar d ≠ '_' ∧ (digitChar d).toNat = 48 + d) := by
  decide

theorem natDigits_props (n : Nat) :
    natDigits n ≠ [] ∧ ∀ c ∈ natDigits n, c.isDigit = true ∧ isWs c = false ∧
      c ≠ '"' ∧ c ≠ '-' ∧ c ≠ '+' ∧ c ≠ '_' := by
  have main : ∀ m : Nat, ∀ n : Nat, n ≤ m →
      (natDigits n ≠ [] ∧ ∀ c ∈ natDigits n, c.isDigit = true ∧ isWs c = false ∧
        c ≠ '"' ∧ c ≠ '-' ∧ c ≠ '+' ∧ c ≠ '_') := by
    intro m
    induction m with
    | zero =>
      intro n hn
      have h0 : n = 0 := by omega
      subst h0
      rw [natDigits_eq]
      refine ⟨by simp, ?_⟩
      intro c hc
      simp only [if_pos (by omega : (0:Nat) < 10), List.mem_singleton] at hc
      subst hc
      have := digitChar_props 0 (by omega)
      exact ⟨this.1, this.2.1, this.2.2.1, this.2.2.2.1, this.2.2.2.2.1,
        this.2.2.2.2.2.1⟩
    | succ k ih =>
      intro n hn
      rw [natDigits_eq]
      by_cases h : n < 10
      · rw [if_pos h]
        refine ⟨by simp, ?_⟩
        intro c hc
        simp only [List.mem_singleton] at hc
        subst hc
        have := digitChar_props n h
        exact ⟨this.1, this.2.1, this.2.2.1, this.2.2.2.1, this.2.2.2.2.1,
          this.2.2.2.2.2.1⟩
      · rw [if_neg h]
        have hrec := ih (n / 10) (by omega)
        refine ⟨by simp [hrec.1], ?_⟩
        intro c hc
        rcases List.mem_append.mp hc with h1 | h1
        · exact hrec.2 c h1
        · simp only [List.mem_singleton] at h1
          subst h1
          have := digitChar_props (n % 10) (by omega)
          exact ⟨this.1, this.2.1, this.2.2.1, this.2.2.2.1, this.2.2.2.2.1,
            this.2.2.2.2.2.1⟩
  exact main n n (Nat.le_refl n)

theorem digitsTail_all : ∀ s : Str, (∀ c ∈ s, c.isDigit = true) →
    digitsTail s = true := by
  intro s
  induction s with
  | nil => intro _; rfl
  | cons c cs ih =>
    intro h
    have hc : c.isDigit = true := h c (List.mem_cons_self _ _)
    have hne : ¬ c = '_' := by
      intro e
      subst e
      simp at hc
    have hcs : ∀ x ∈ cs, x.isDigit = true := fun x hx => h x (List.mem_cons_of_mem _ hx)
    cases cs with
    | nil => simp [digitsTail, hne, hc]
    | cons x xs => simp [digitsTail, hne, hc, ih hcs]

theorem validDigitsU_natDigits (n : Nat) : validDigitsU (natDigits n) = true := by
  obtain ⟨hne, hprops⟩ := natDigits_props n
  cases hd : natDigits n with
  | nil => exact absurd hd hne
  | cons c cs =>
    have hc : c.isDigit = true := (hprops c (hd ▸ List.mem_cons_self _ _)).1
    have hcs : ∀ x ∈ cs, x.isDigit = true := by
      intro x hx
      exact (hprops x (hd ▸ List.mem_cons_of_mem _ hx)).1
    simp [validDigitsU, hc, digitsTail_all cs hcs]

theorem digitsVal_natDigits (n : Nat) : digitsVal (natDigits n) = n := by
  have hfil : ∀ m : Nat, (natDigits m).filter (fun c => c ≠ '_') = natDigits m := by
    intro m
    apply List.filter_eq_self.mpr
    intro c hc
    simp [((natDigits_props m).2 c hc).2.2.2.2.2]
  have main : ∀ k : Nat, ∀ n : Nat, n ≤ k → digitsVal (natDigits n) = n := by
    intro k
    induction k with
    | zero =>
      intro n hn
      have h0 : n = 0 := by omega
      subst h0
      rfl
    | succ m ih =>
      intro n hn
      by_cases h : n < 10
      · unfold digitsVal
        rw [hfil, natDigits_eq, if_pos h]
        simp only [List.foldl_cons, List.foldl_nil]
        have := (digitChar_props n h).2.2.2.2.2.2
        omega
      · unfold digitsVal
        rw [hfil, natDigits_eq, if_neg h, List.foldl_append]
        have hrec := ih (n / 10) (by omega)
        unfold digitsVal at hrec
        rw [hfil] at hrec
        rw [hrec]
        simp only [List.foldl_cons, List.foldl_nil]
        have := (digitChar_props (n % 10) (by omega)).2.2.2.2.2.2
        omega
  exact main n n (Nat.le_refl n)

theorem stripWs_eq_self {s : Str} (h : ∀ c ∈ s, isWs c = false) : stripWs s = s := by
  have h1 : s.dropWhile isWs = s := by
    cases s with
    | nil => rfl
    | cons c cs => simp [List.dropWhile_cons, h c (List.mem_cons_self _ _)]
  have h2 : s.reverse.dropWhile isWs = s.reverse := by
    cases hs : s.reverse with
    | nil => rfl
    | cons c cs =>
      have hc : c ∈ s := by
        rw [← List.mem_reverse, hs]
        exact List.mem_cons_self _ _
      simp [List.dropWhile_cons, h c hc]
  unfold stripWs
  rw [h1, h2, List.reverse_reverse]

theorem pyIntOfStr_natDigits (m : Nat) :
    pyIntOfStr (natDigits m) = .ok (Int.ofNat m) := by
  obtain ⟨hne, hprops⟩ := natDigits_props m
  have hstrip : stripWs (natDigits m) = natDigits m :=
    stripWs_eq_self (fun c hc => (hprops c hc).2.1)
  cases hd : natDigits m with
  | nil => exact absurd hd hne
  | cons c cs =>
    have hcp := hprops c (hd ▸ List.mem_cons_self _ _)
    have hplus : ¬ c = '+' := hcp.2.2.2.2.1
    have hminus : ¬ c = '-' := hcp.2.2.2.1
    have hv : validDigitsU (natDigits m) = true := validDigitsU_natDigits m
    rw [hd] at hv hstrip
    have hdv : digitsVal (natDigits m) = m := digitsVal_natDigits m
    rw [hd] at hdv
    simp [pyIntOfStr, hstrip, hplus, hminus, hv, hdv]

theorem pyIntOfStr_intEncode (n : Int) : pyIntOfStr (intEncode n) = .ok n := by
  unfold intEncode
  by_cases h : n < 0
  · rw [if_pos h]
    have hstrip : stripWs ('-' :: natDigits n.natAbs) = '-' :: natDigits n.natAbs := by
      apply stripWs_eq_self
      intro c hc
      rcases List.mem_cons.mp hc with h1 | h1
      · subst h1; decide
      · exact ((natDigits_props n.natAbs).2 c h1).2.1
    have hv := validDigitsU_natDigits n.natAbs
    have hdv := digitsVal_natDigits n.natAbs
    simp only [pyIntOfStr, hstrip, hv, if_pos, hdv]
    have heq : -(Int.ofNat n.natAbs) = n := by
      have h2 : (Int.ofNat n.natAbs) = -n := Int.ofNat_natAbs_of_nonpos (by omega)
      omega
    rw [heq]
  · rw [if_neg h]
    rw [pyIntOfStr_natDigits n.toNat]
    have heq : Int.ofNat n.toNat = n := Int.toNat_of_nonneg (by omega)
    rw [heq]

theorem parseBool_encodeBool (b : Bool) : parseBool (encodeBool b) = .ok b := by
  cases b <;> rfl

theorem intEncode_props (n : Int) :
    intEncode n ≠ [] ∧ ∀ c ∈ intEncode n, isWs c = false ∧ c ≠ '"' := by
  unfold intEncode
  by_cases h : n < 0
  · rw [if_pos h]
    refine ⟨by simp, ?_⟩
    intro c hc
    rcases List.mem_cons.mp hc with h1 | h1
    · subst h1; exact ⟨by decide, by decide⟩
    · have := (natDigits_props n.natAbs).2 c h1
      exact ⟨this.2.1, this.2.2.1⟩
  · rw [if_neg h]
    refine ⟨(natDigits_props n.toNat).1, ?_⟩
    intro c hc
    have := (natDigits_props n.toNat).2 c hc
    exact ⟨this.2.1, this.2.2.1⟩

theorem encodeBool_props (b : Bool) :
    encodeBool b ≠ [] ∧ ∀ c ∈ encodeBool b, isWs c = false ∧ c ≠ '"' ∧ c ≠ '-' := by
  cases b <;> decide

/-! ### mapM utilities -/

theorem mapM_ok_forall {α β : Type} {f : α → Except PyErr β} :
    ∀ {l : List α} {ys : List β}, l.mapM f = .ok ys →
      List.Forall₂ (fun a y => f a = .ok y) l ys := by
  intro l
  induction l with
  | nil =>
    intro ys h
    simp only [List.mapM_nil] at h
    have hys : ys = [] := by
      have hpp : (pure [] : Except PyErr (List β)) = .ok [] := rfl
      rw [hpp] at h
      simp only [Except.ok.injEq] at h
      exact h.symm
    subst hys
    exact List.Forall₂.nil
  | cons a as ih =>
    intro ys h
    rw [List.mapM_cons] at h
    cases hfa : f a with
    | error e =>
      rw [hfa] at h
      simp [bind, Except.bind] at h
    | ok b =>
      rw [hfa] at h
      cases hrest : as.mapM f with
      | error e =>
        rw [hrest] at h
        simp [bind, Except.bind] at h
      | ok bs =>
        rw [hrest] at h
        simp only [bind, Except.bind, pure, Except.pure, Except.ok.injEq] at h
        subst h
        exact List.Forall₂.cons hfa (ih hrest)

theorem forall2_right_mem {α β : Type} {R : α → β → Prop} :
    ∀ {l1 : List α} {l2 : List β}, List.Forall₂ R l1 l2 →
      ∀ y ∈ l2, ∃ x ∈ l1, R x y := by
  intro l1 l2 h
  induction h with
  | nil =>
    intro y hy
    simp at hy
  | cons hr hrest ih =>
    intro y hy
    rcases List.mem_cons.mp hy with h1 | h1
    · subst h1
      exact ⟨_, List.mem_cons_self _ _, hr⟩
    · obtain ⟨x, hx, hxy⟩ := ih y h1
      exact ⟨x, List.mem_cons_of_mem _ hx, hxy⟩

theorem mapM_ok_of_forall {α β : Type} {f : α → Except PyErr β} {g : α → β} :
    ∀ {l : List α}, (∀ a ∈ l, f a = .ok (g a)) → l.mapM f = .ok (l.map g) := by
  intro l
  induction l with
  | nil => intro _; rfl
  | cons a as ih =>
    intro h
    rw [List.mapM_cons, h a (List.mem_cons_self _ _),
      ih (fun x hx => h x (List.mem_cons_of_mem _ hx))]
    rfl

theorem mapM_ok_id {f : Scalar → Except PyErr Scalar} :
    ∀ {l : List Scalar}, (∀ x ∈ l, f x = .ok x) → l.mapM f = .ok l := by
  intro l h
  have hof := mapM_ok_of_forall (g := id) (by simpa using h)
  simpa using hof

/-! ### Typing of parse results -/

theorem pdecodeS_ty {a : Argument} {t : Str} {x : Scalar}
    (h : a.pdecodeS t = .ok x) : scalarTy x = a.type := by
  unfold Argument.pdecodeS at h
  cases hty : a.type with
  | tStr =>
    rw [hty] at h
    simp only [Except.ok.injEq] at h
    subst h
    rfl
  | tInt =>
    rw [hty] at h
    cases hp : pyIntOfStr t with
    | error e => rw [hp] at h; exact absurd h (by simp [Except.map])
    | ok n =>
      rw [hp] at h
      simp only [Except.map, Except.ok.injEq] at h
      subst h
      rfl
  | tBool =>
    rw [hty] at h
    cases hp : parseBool t with
    | error e => rw [hp] at h; exact absurd h (by simp [Except.map])
    | ok b =>
      rw [hp] at h
      simp only [Except.map, Except.ok.injEq] at h
      subst h
      rfl

theorem isSwitch_parts {a : Argument} (h : a.isSwitch = true) :
    a.type = .tBool ∧ a.default = .sc (.b false) := by
  unfold Argument.isSwitch at h
  simp only [Bool.and_eq_true, decide_eq_true_eq] at h
  exact h

theorem parseList_ty {a : Argument} (hsw : a.isSwitch = true → a.many = false)
    {ob : Option (List Str)} {v : Value} (h : a.parseList ob = .ok v) :
    v = a.default ∨ wellTypedV a v := by
  cases ob with
  | none =>
    unfold Argument.parseList at h
    by_cases hd : a.default = .vMissing
    · rw [if_pos hd] at h
      exact absurd h (by simp)
    · rw [if_neg hd] at h
      simp only [Except.ok.injEq] at h
      exact Or.inl h.symm
  | some toks =>
    cases toks with
    | nil =>
      unfold Argument.parseList at h
      by_cases hs : a.isSwitch = true
      · rw [if_pos hs] at h
        simp only [Except.ok.injEq] at h
        subst h
        refine Or.inr ?_
        unfold wellTypedV
        rw [if_neg (by simp [hsw hs])]
        exact ⟨.b true, rfl, (isSwitch_parts hs).1.symm⟩
      · rw [if_neg hs] at h
        exact absurd h (by simp)
    | cons t ts =>
      unfold Argument.parseList at h
      dsimp only at h
      by_cases hm : a.many = true
      · rw [if_pos hm] at h
        unfold Argument.decode at h
        rw [if_pos hm] at h
        dsimp only at h
        rw [if_neg (by simp : ¬ (t :: ts : List Str) = [])] at h
        cases hmm : (t :: ts).mapM a.pdecodeS with
        | error e => rw [hmm] at h; exact absurd h (by simp [Except.map])
        | ok xs =>
          rw [hmm] at h
          simp only [Except.map, Except.ok.injEq] at h
          subst h
          refine Or.inr ?_
          unfold wellTypedV
          rw [if_pos hm]
          refine ⟨xs, rfl, ?_, ?_⟩
          · have hlen := List.Forall₂.length_eq (mapM_ok_forall hmm)
            intro he
            rw [he] at hlen
            simp at hlen
          · intro x hx
            obtain ⟨t0, _, hf⟩ := forall2_right_mem (mapM_ok_forall hmm) x hx
            exact pdecodeS_ty hf
      · rw [if_neg hm] at h
        unfold Argument.decode at h
        rw [if_neg hm] at h
        dsimp only at h
        by_cases hc : a.type ≠ .tStr ∧ t = []
        · rw [if_pos hc] at h
          simp only [Except.ok.injEq] at h
          exact Or.inl h.symm
        · rw [if_neg hc] at h
          cases hp : a.pdecodeS t with
          | error e => rw [hp] at h; exact absurd h (by simp [Except.map])
          | ok x =>
            rw [hp] at h
            simp only [Except.map, Except.ok.injEq] at h
            subst h
            refine Or.inr ?_
            unfold wellTypedV
            rw [if_neg (by simp [hm])]
            exact ⟨x, rfl, pdecodeS_ty hp⟩

theorem castS_id {ty : PyType} {x : Scalar} (h : scalarTy x = ty) :
    castS ty x = .ok x := by
  cases x with
  | s v => rw [← h]; rfl
  | i n => rw [← h]; rfl
  | b v =>
    rw [← h]
    show castS .tBool (.b v) = .ok (.b v)
    rfl

theorem castValue_wellTyped {a : Argument} {v : Value} (h : wellTypedV a v) :
    castValue a.type a.many v = .ok v := by
  unfold wellTypedV at h
  unfold castValue
  by_cases hm : a.many = true
  · rw [if_pos hm]
    rw [if_pos hm] at h
    obtain ⟨xs, rfl, _, htys⟩ := h
    dsimp only
    rw [mapM_ok_id (fun x hx => castS_id (htys x hx))]
    rfl
  · rw [if_neg hm]
    rw [if_neg hm] at h
    obtain ⟨x, rfl, hxty⟩ := h
    dsimp only
    rw [castS_id hxty]
    rfl

theorem validate_ok_eq {a : Argument} {v v' : Value}
    (hty : v = a.default ∨ wellTypedV a v) (h : a.validate v = .ok v') : v' = v := by
  unfold Argument.validate at h
  by_cases hm : v = .vMissing
  · rw [if_pos hm] at h
    exact absurd h (by simp)
  · rw [if_neg hm] at h
    by_cases hd : v = a.default
    · rw [if_pos hd] at h
      simp only [Except.ok.injEq] at h
      exact h.symm
    · rw [if_neg hd] at h
      rcases hty with h1 | h2
      · exact absurd h1 hd
      · unfold Argument.pvalidate rawValidate at h
        rw [castValue_wellTyped h2] at h
        dsimp only at h
        cases hv : a.valid with
        | none =>
          rw [hv] at h
          simp only [Except.ok.injEq] at h
          exact h.symm
        | some f =>
          rw [hv] at h
          dsimp only at h
          by_cases hf : f v = true
          · rw [if_pos hf] at h
            simp only [Except.ok.injEq] at h
            exact h.symm
          · rw [if_neg hf] at h
            exact absurd h (by simp)

theorem find?_name_of_nodup {schema : List Argument}
    (hnd : (schema.map (fun a => a.name)).Nodup) {a : Argument} (ha : a ∈ schema) :
    schema.find? (fun x => x.name = a.name) = some a := by
  induction schema with
  | nil => simp at ha
  | cons b rest ih =>
    rcases List.mem_cons.mp ha with h1 | h1
    · subst h1
      simp [List.find?]
    · have hbn : ¬ b.name ∈ rest.map (fun x => x.name) := by
        simp only [List.map_cons, List.nodup_cons] at hnd
        exact hnd.1
      have hne : ¬ (b.name = a.name) :=
        fun he => hbn (he ▸ List.mem_map_of_mem (fun x => x.name) h1)
      have hnd1 : (rest.map (fun x => x.name)).Nodup := by
        simp only [List.map_cons, List.nodup_cons] at hnd
        exact hnd.2
      simp only [List.find?]
      rw [decide_eq_false hne]
      exact ih hnd1 h1

/-! ### Characterization of a successful parse -/

theorem updateSeq_ok_spec (schema : List Argument) :
    ∀ (kvs : List (Str × Value)) (st st' : Store),
      (kvs.map Prod.fst).Nodup →
      updateSeq schema st kvs = .ok st' →
      ((∀ p ∈ kvs,
          (∀ a, schema.find? (fun x => x.name = p.1) = some a →
            ∃ v', a.validate p.2 = .ok v' ∧ aGet st' p.1 = some v') ∧
          (schema.find? (fun x => x.name = p.1) = Option.none →
            aGet st' p.1 = some p.2)) ∧
        (∀ n, ¬ n ∈ kvs.map Prod.fst → aGet st' n = aGet st n)) := by
  intro kvs
  induction kvs with
  | nil =>
    intro st st' _ h
    have hst : st = st' := by
      unfold updateSeq at h
      simp only [UpOutcome.ok.injEq] at h
      exact h
    refine ⟨by simp, ?_⟩
    intro n _
    rw [hst]
  | cons p rest ih =>
    obtain ⟨n, v⟩ := p
    intro st st' hnd h
    unfold updateSeq at h
    have hnn : ¬ n ∈ rest.map Prod.fst := by
      simp only [List.map_cons, List.nodup_cons] at hnd
      exact hnd.1
    have hnd1 : (rest.map Prod.fst).Nodup := by
      simp only [List.map_cons, List.nodup_cons] at hnd
      exact hnd.2
    cases hf : schema.find? (fun x => x.name = n) with
    | some a =>
      rw [hf] at h
      dsimp only at h
      cases hsv : a.setVal st v with
      | error e =>
        rw [hsv] at h
        exact absurd h (by simp)
      | ok st1 =>
        rw [hsv] at h
        obtain ⟨hall, hpres⟩ := ih st1 st' hnd1 h
        have han : a.name = n := by
          have hp := List.find?_some hf
          exact of_decide_eq_true hp
        unfold Argument.setVal at hsv
        cases hval : a.validate v with
        | error e =>
          rw [hval] at hsv
          exact absurd hsv (by simp)
        | ok v' =>
          rw [hval] at hsv
          simp only [Except.ok.injEq] at hsv
          refine ⟨?_, ?_⟩
          · intro q hq
            rcases List.mem_cons.mp hq with h1 | h1
            · subst h1
              constructor
              · intro a2 hf2
                rw [hf] at hf2
                simp only [Option.some.injEq] at hf2
                subst hf2
                refine ⟨v', hval, ?_⟩
                rw [hpres n hnn, ← hsv, ← han, aGet_aSet_same]
              · intro hf0
                rw [hf] at hf0
                exact absurd hf0 (by simp)
            · exact hall q h1
          · intro n0 hn0
            simp only [List.map_cons, List.mem_cons, not_or] at hn0
            rw [hpres n0 hn0.2, ← hsv, aGet_aSet_ne _ _ _ _ (han ▸ hn0.1)]
    | none =>
      rw [hf] at h
      dsimp only at h
      obtain ⟨hall, hpres⟩ := ih (aSet st n v) st' hnd1 h
      refine ⟨?_, ?_⟩
      · intro q hq
        rcases List.mem_cons.mp hq with h1 | h1
        · subst h1
          constructor
          · intro a2 hf2
            rw [hf] at hf2
            exact absurd hf2 (by simp)
          · intro _
            rw [hpres n hnn, aGet_aSet_same]
        · exact hall q h1
      · intro n0 hn0
        simp only [List.map_cons, List.mem_cons, not_or] at hn0
        rw [hpres n0 hn0.2, aGet_aSet_ne _ _ _ _ hn0.1]

theorem parseListCore_eq (schema : List Argument) (toks : List Str) :
    parseListCore schema toks =
      match getPositionalKwargs schema (getArgsKwargs schema toks).2
          (getArgsKwargs schema toks).1 with
      | .error e => .error e
      | .ok pk =>
        schema.mapM (fun a =>
          (a.parseList (aGet (kwUpdate (getArgsKwargs schema toks).2 pk) a.name)).map
            (fun v => (a.name, v))) := by
  unfold parseListCore
  rcases he : getArgsKwargs schema toks with ⟨pos, kw⟩
  rfl

theorem forall2_left_mem {α β : Type} {R : α → β → Prop} :
    ∀ {l1 : List α} {l2 : List β}, List.Forall₂ R l1 l2 →
      ∀ x ∈ l1, ∃ y ∈ l2, R x y := by
  intro l1 l2 h
  induction h with
  | nil =>
    intro x hx
    simp at hx
  | cons hr hrest ih =>
    intro x hx
    rcases List.mem_cons.mp hx with h1 | h1
    · subst h1
      exact ⟨_, List.mem_cons_self _ _, hr⟩
    · obtain ⟨y, hy, hxy⟩ := ih x h1
      exact ⟨y, List.mem_cons_of_mem _ hy, hxy⟩

theorem forall2_proj {l1 : List Argument} {l2 : List (Str × Value)}
    (h : List.Forall₂ (fun a y => y.1 = a.name) l1 l2) :
    l2.map Prod.fst = l1.map (fun a => a.name) := by
  induction h with
  | nil => rfl
  | cons hr _ ih => simp [ih, hr]

theorem exmap_ok {α β : Type} {g : α → β} {e : Except PyErr α} {y : β}
    (h : e.map g = .ok y) : ∃ v, e = .ok v ∧ y = g v := by
  cases e with
  | error e0 => exact absurd h (by simp [Except.map])
  | ok v =>
    refine ⟨v, rfl, ?_⟩
    simp only [Except.map, Except.ok.injEq] at h
    exact h.symm

theorem runParseList_ok_get {schema : List Argument} {st : Store} {toks : List Str}
    {st' : Store}
    (hnd : (schema.map (fun a => a.name)).Nodup)
    (hsw : ∀ a ∈ schema, a.isSwitch = true → a.many = false)
    (h : runParseList schema st toks = .ok st') :
    ∃ pk, getPositionalKwargs schema (getArgsKwargs schema toks).2
        (getArgsKwargs schema toks).1 = .ok pk ∧
      (∀ a ∈ schema, ∃ v,
        a.parseList (aGet (kwUpdate (getArgsKwargs schema toks).2 pk) a.name) = .ok v ∧
        a.validate v = .ok v ∧ aGet st' a.name = some v) ∧
      (∀ n, ¬ n ∈ schema.map (fun a => a.name) → aGet st' n = aGet st n) := by
  unfold runParseList at h
  cases hc : parseListCore schema toks with
  | error e =>
    rw [hc] at h
    exact absurd h (by simp)
  | ok kvs =>
    rw [hc] at h
    rw [parseListCore_eq] at hc
    cases hg : getPositionalKwargs schema (getArgsKwargs schema toks).2
        (getArgsKwargs schema toks).1 with
    | error e =>
      rw [hg] at hc
      exact absurd hc (by simp)
    | ok pk =>
      rw [hg] at hc
      dsimp only at hc
      have hfa := mapM_ok_forall hc
      have hfa2 : List.Forall₂ (fun (a : Argument) (y : Str × Value) =>
          ∃ v, a.parseList (aGet (kwUpdate (getArgsKwargs schema toks).2 pk) a.name) =
            .ok v ∧ y = (a.name, v)) schema kvs :=
        hfa.imp (fun a y hxy => exmap_ok hxy)
      have hfst : kvs.map Prod.fst = schema.map (fun a => a.name) :=
        forall2_proj (hfa2.imp (fun a y hxy => by
          obtain ⟨v, _, hy⟩ := hxy
          rw [hy]))
      have hknd : (kvs.map Prod.fst).Nodup := by rw [hfst]; exact hnd
      obtain ⟨hall, hpres⟩ := updateSeq_ok_spec schema kvs st st' hknd h
      refine ⟨pk, rfl, ?_, ?_⟩
      · intro a ha
        obtain ⟨y, hy, v, hpl, hyv⟩ := forall2_left_mem hfa2 a ha
        subst hyv
        have hfind : schema.find? (fun x => x.name = a.name) = some a :=
          find?_name_of_nodup hnd ha
        obtain ⟨v', hval, hgot⟩ := (hall _ hy).1 a hfind
        have hveq : v' = v := validate_ok_eq (parseList_ty (hsw a ha) hpl) hval
        subst hveq
        exact ⟨v', hpl, hval, hgot⟩
      · intro n hn
        apply hpres
        rw [hfst]
        exact hn

/-! ### Bucket-collection (get_args_kwargs) lemmas -/

theorem aGet_kwApp_ne {kw : KW} {n m : Str} {t : Str} (h : n ≠ m) :
    aGet (kwApp kw m t) n = aGet kw n := by
  induction kw with
  | nil => rfl
  | cons p rest ih =>
    obtain ⟨k, b⟩ := p
    by_cases hk : k = m
    · subst hk
      have hkn : ¬ k = n := fun e => h (e.symm)
      simp [kwApp, aGet, hkn]
    · simp [kwApp, hk, aGet, ih]

theorem gakGo_append (schema : List Argument) :
    ∀ (A B : List Str) (pos : List Str) (kw : KW) (cur : Option Str),
      gakGo schema (A ++ B) pos kw cur =
        gakGo schema B (gakGo schema A pos kw cur).1
          (gakGo schema A pos kw cur).2.1 (gakGo schema A pos kw cur).2.2 := by
  intro A
  induction A with
  | nil => intro B pos kw cur; rfl
  | cons t ts ih =>
    intro B pos kw cur
    show gakGo schema (t :: (ts ++ B)) pos kw cur = _
    cases hf : flagOwner schema t with
    | some n =>
      simp only [gakGo, hf]
      rw [ih]
    | none =>
      cases cur with
      | none =>
        simp only [gakGo, hf]
        rw [ih]
      | some n =>
        simp only [gakGo, hf]
        rw [ih]

theorem gak_preserve (schema : List Argument) (n : Str) :
    ∀ (toks pos : List Str) (kw : KW) (cur : Option Str),
      (∀ t ∈ toks, flagOwner schema t ≠ some n) → cur ≠ some n →
      aGet (gakGo schema toks pos kw cur).2.1 n = aGet kw n := by
  intro toks
  induction toks with
  | nil => intro pos kw cur _ _; rfl
  | cons t ts ih =>
    intro pos kw cur hflags hcur
    have ht := hflags t (List.mem_cons_self _ _)
    have hts : ∀ x ∈ ts, flagOwner schema x ≠ some n :=
      fun x hx => hflags x (List.mem_cons_of_mem _ hx)
    cases hf : flagOwner schema t with
    | some m =>
      have hmn : m ≠ n := by
        intro e
        exact ht (by rw [hf, e])
      simp only [gakGo, hf]
      rw [ih pos (aSet kw m []) (some m) hts (by simp [hmn])]
      exact aGet_aSet_ne _ _ _ _ (Ne.symm hmn)
    | none =>
      cases cur with
      | none =>
        simp only [gakGo, hf]
        exact ih _ _ _ hts (by simp)
      | some m =>
        have hmn : m ≠ n := by
          intro e
          exact hcur (by rw [e])
        simp only [gakGo, hf]
        rw [ih pos (kwApp kw m t) (some m) hts (by simp [hmn])]
        exact aGet_kwApp_ne (Ne.symm hmn)

theorem gak_pos_stable (schema : List Argument) :
    ∀ (toks pos : List Str) (kw : KW) (m : Str),
      (gakGo schema toks pos kw (some m)).1 = pos := by
  intro toks
  induction toks with
  | nil => intro pos kw m; rfl
  | cons t ts ih =>
    intro pos kw m
    cases hf : flagOwner schema t with
    | some n =>
      simp only [gakGo, hf]
      exact ih _ _ _
    | none =>
      simp only [gakGo, hf]
      exact ih _ _ _

theorem fo_skip {f : Str} :
    ∀ (l : List Argument) (acc : Option Str), (∀ b ∈ l, ¬ f ∈ b.flags) →
      l.foldl (fun acc a => if f ∈ a.flags then some a.name else acc) acc = acc := by
  intro l
  induction l with
  | nil => intro acc _; rfl
  | cons b rest ih =>
    intro acc h
    simp only [List.foldl_cons]
    rw [if_neg (h b (List.mem_cons_self _ _))]
    exact ih acc (fun x hx => h x (List.mem_cons_of_mem _ hx))

theorem flagOwner_unique {schema : List Argument}
    (hnd : ((schema.map (fun a => a.flags)).flatten).Nodup) :
    ∀ {a : Argument}, a ∈ schema → ∀ {f : Str}, f ∈ a.flags →
      flagOwner schema f = some a.name := by
  induction schema with
  | nil =>
    intro a ha
    simp at ha
  | cons b rest ih =>
    intro a ha f hf
    have hnd1 : ((rest.map (fun a => a.flags)).flatten).Nodup := by
      simp only [List.map_cons, List.flatten_cons] at hnd
      exact (List.nodup_append.mp hnd).2.1
    have hdisj : ∀ x ∈ b.flags, ¬ x ∈ (rest.map (fun a => a.flags)).flatten := by
      simp only [List.map_cons, List.flatten_cons] at hnd
      intro x hx hmem
      exact (List.nodup_append.mp hnd).2.2 hx hmem
    rcases List.mem_cons.mp ha with h1 | h1
    · subst h1
      unfold flagOwner
      simp only [List.foldl_cons]
      rw [if_pos hf]
      apply fo_skip
      intro c hc hfc
      exact hdisj f hf (List.mem_flatten.mpr ⟨c.flags, List.mem_map_of_mem _ hc, hfc⟩)
    · have hnb : ¬ f ∈ b.flags := by
        intro hfb
        exact hdisj f hfb (List.mem_flatten.mpr ⟨a.flags, List.mem_map_of_mem _ h1, hf⟩)
      unfold flagOwner
      simp only [List.foldl_cons]
      rw [if_neg hnb]
      exact ih hnd1 h1 hf

theorem posCandidates_none {schema : List Argument} {kw : KW} :
    ∀ a ∈ posCandidates schema kw, aGet kw a.name = Option.none := by
  induction schema with
  | nil =>
    intro a ha
    simp [posCandidates] at ha
  | cons b rest ih =>
    intro a ha
    unfold posCandidates at ha
    by_cases hb : (aGet kw b.name).isSome = true
    · rw [if_pos hb] at ha
      simp at ha
    · rw [if_neg hb] at ha
      rcases List.mem_cons.mp ha with h1 | h1
      · subst h1
        cases hg : aGet kw a.name with
        | none => rfl
        | some v => rw [hg] at hb; simp at hb
      · exact ih a h1

theorem leftLoop_keys :
    ∀ (args : List Str) (defs : List Argument) ks args' defs',
      leftLoop args defs = .ok (ks, args', defs') →
      ∀ p ∈ ks, p.1 ∈ defs.map (fun a => a.name) := by
  intro args
  induction args with
  | nil =>
    intro defs ks args' defs' h p hp
    simp only [leftLoop, Except.ok.injEq, Prod.mk.injEq] at h
    obtain ⟨rfl, _, _⟩ := h
    simp at hp
  | cons t ts ih =>
    intro defs ks args' defs' h p hp
    cases defs with
    | nil => exact absurd h (by simp [leftLoop])
    | cons d ds =>
      by_cases hm : d.many = true
      · rw [show leftLoop (t :: ts) (d :: ds) = .ok ([], t :: ts, d :: ds) by
          simp [leftLoop, hm]] at h
        simp only [Except.ok.injEq, Prod.mk.injEq] at h
        obtain ⟨rfl, _, _⟩ := h
        simp at hp
      · have hL : leftLoop (t :: ts) (d :: ds) =
            match leftLoop ts ds with
            | .error e => .error e
            | .ok (ks0, args0, defs0) => .ok ((d.name, [t]) :: ks0, args0, defs0) := by
          simp [leftLoop, hm]
        cases hrec : leftLoop ts ds with
        | error e =>
          rw [hL, hrec] at h
          exact absurd h (by simp)
        | ok q =>
          obtain ⟨ks0, args0, defs0⟩ := q
          rw [hL, hrec] at h
          simp only [Except.ok.injEq, Prod.mk.injEq] at h
          obtain ⟨rfl, _, _⟩ := h
          rcases List.mem_cons.mp hp with h1 | h1
          · subst h1
            simp
          · have := ih ds ks0 args0 defs0 hrec p h1
            simp only [List.map_cons, List.mem_cons]
            exact Or.inr this

theorem rightLoop_keys {args : List Str} {defs : List Argument}
    {ks : List (Str × List Str)} {args' : List Str} {defs' : List Argument}
    (h : rightLoop args defs = .ok (ks, args', defs')) :
    ∀ p ∈ ks, p.1 ∈ defs.map (fun a => a.name) := by
  unfold rightLoop at h
  cases hL : leftLoop args.reverse defs.reverse with
  | error e => rw [hL] at h; exact absurd h (by simp)
  | ok q =>
    obtain ⟨ks0, ra, rd⟩ := q
    rw [hL] at h
    simp only [Except.ok.injEq, Prod.mk.injEq] at h
    obtain ⟨rfl, _, _⟩ := h
    intro p hp
    have hmem := leftLoop_keys args.reverse defs.reverse ks0 ra rd hL p hp
    rw [List.map_reverse] at hmem
    exact List.mem_reverse.mp hmem

theorem getPositionalKwargs_keys {schema : List Argument} {kw : KW}
    {posArgs : List Str} {pk : List (Str × List Str)}
    (h : getPositionalKwargs schema kw posArgs = .ok pk) :
    ∀ p ∈ pk, p.1 ∈ (posCandidates schema kw).map (fun a => a.name) := by
  unfold getPositionalKwargs at h
  cases hL : leftLoop posArgs (posCandidates schema kw) with
  | error e => rw [hL] at h; exact absurd h (by simp)
  | ok p1 =>
    obtain ⟨k1, args1, defs1⟩ := p1
    rw [hL] at h
    dsimp only at h
    cases hR : rightLoop args1 defs1 with
    | error e => rw [hR] at h; exact absurd h (by simp)
    | ok p2 =>
      obtain ⟨k2, args2, defs2⟩ := p2
      rw [hR] at h
      dsimp only at h
      obtain ⟨_, _, front, hfr, _⟩ := leftLoop_spec _ _ _ _ _ hL
      obtain ⟨_, _, back, hbk, _⟩ := rightLoop_spec hR
      have hsub1 : ∀ p ∈ k1, p.1 ∈ (posCandidates schema kw).map (fun a => a.name) :=
        leftLoop_keys _ _ _ _ _ hL
      have hsub2 : ∀ p ∈ k2, p.1 ∈ (posCandidates schema kw).map (fun a => a.name) := by
        intro p hp
        have hm := rightLoop_keys hR p hp
        rw [hfr]
        simp only [List.map_append, List.mem_append]
        exact Or.inr hm
      have hdefs2 : ∀ d ∈ defs2, d.name ∈ (posCandidates schema kw).map (fun a => a.name) := by
        intro d hd
        rw [hfr, hbk]
        simp only [List.map_append, List.mem_append]
        exact Or.inr (Or.inl (List.mem_map_of_mem _ hd))
      rcases args2 with _ | ⟨t, ts⟩
      · simp only [Except.ok.injEq] at h
        subst h
        intro p hp
        rcases List.mem_append.mp hp with h1 | h1
        · exact hsub1 p h1
        · exact hsub2 p h1
      · rcases defs2 with _ | ⟨d1, ds⟩
        · simp only [Except.ok.injEq] at h
          subst h
          intro p hp
          rcases List.mem_append.mp hp with h1 | h1
          · exact hsub1 p h1
          · exact hsub2 p h1
        · rcases ds with _ | ⟨d2, ds2⟩
          · simp only [Except.ok.injEq] at h
            subst h
            intro p hp
            rcases List.mem_append.mp hp with h1 | h1
            · rcases List.mem_append.mp h1 with h2 | h2
              · exact hsub1 p h2
              · exact hsub2 p h2
            · simp only [List.mem_singleton] at h1
              subst h1
              exact hdefs2 d1 (List.mem_cons_self _ _)
          · simp only [Except.ok.injEq] at h
            subst h
            intro p hp
            rcases List.mem_append.mp hp with h1 | h1
            · exact hsub1 p h1
            · exact hsub2 p h1

theorem kwUpdate_not_mem {kw : KW} {pk : List (Str × List Str)} {n : Str}
    (h : ¬ n ∈ pk.map Prod.fst) : aGet (kwUpdate kw pk) n = aGet kw n := by
  induction pk generalizing kw with
  | nil => rfl
  | cons p rest ih =>
    obtain ⟨m, b⟩ := p
    simp only [List.map_cons, List.mem_cons, not_or] at h
    unfold kwUpdate
    simp only [List.foldl_cons]
    have := @ih (aSet kw m b) (by simp [h.2])
    unfold kwUpdate at this
    rw [this, aGet_aSet_ne _ _ _ _ h.1]

theorem getPositionalKwargs_nil (schema : List Argument) (kw : KW) :
    getPositionalKwargs schema kw [] = .ok [] := by
  unfold getPositionalKwargs rightLoop
  simp only [leftLoop, List.reverse_nil]
  rfl

/-- C6 (amended): for a switch `x` (`bool`, `default=False`) in a
well-formed schema, a successful parse yields `x = True` when some flag of
`x` appears followed by no value token (next token is a recognized flag, or
the line ends), and `x = False` when no flag of `x` appears and no token is
positional (the line is empty or starts with a flag); a non-flag token
directly after the flag is consumed as `x`'s value instead (see the
counterexample). -/
theorem claimC6switchAmended (schema : List Argument) (x : Argument) (st st' : Store)
    (toks : List Str)
    (hnd : (schema.map (fun a => a.name)).Nodup)
    (hfl : ((schema.map (fun a => a.flags)).flatten).Nodup)
    (hsw : ∀ a ∈ schema, a.isSwitch = true → a.many = false)
    (hx : x ∈ schema) (hxs : x.isSwitch = true)
    (hok : runParseList schema st toks = .ok st') :
    ((∃ A f B, toks = A ++ f :: B ∧ f ∈ x.flags ∧
        (∀ t ∈ B, flagOwner schema t ≠ some x.name) ∧
        (B = [] ∨ ∃ t B', B = t :: B' ∧ (flagOwner schema t).isSome)) →
      aGet st' x.name = some (.sc (.b true))) ∧
    (((∀ t ∈ toks, flagOwner schema t ≠ some x.name) ∧
        (toks = [] ∨ ∃ t ts, toks = t :: ts ∧ (flagOwner schema t).isSome)) →
      aGet st' x.name = some (.sc (.b false))) := by
  obtain ⟨pk, hpk, hvals, _⟩ := runParseList_ok_get hnd hsw hok
  obtain ⟨v, hpl, _, hget⟩ := hvals x hx
  constructor
  · rintro ⟨A, f, B, rfl, hf, hB, hBhead⟩
    have howner : flagOwner schema f = some x.name := flagOwner_unique hfl hx hf
    have hkw : aGet (getArgsKwargs schema (A ++ f :: B)).2 x.name = some [] := by
      show aGet (gakGo schema (A ++ f :: B) [] [] Option.none).2.1 x.name = some []
      rw [gakGo_append]
      set s1 := gakGo schema A [] [] Option.none with hs1
      show aGet (gakGo schema (f :: B) s1.1 s1.2.1 s1.2.2).2.1 x.name = some []
      rw [show gakGo schema (f :: B) s1.1 s1.2.1 s1.2.2 =
          gakGo schema B s1.1 (aSet s1.2.1 x.name []) (some x.name) by
        simp [gakGo, howner]]
      rcases hBhead with hB0 | ⟨t, B', rfl, hts⟩
      · subst hB0
        exact aGet_aSet_same _ _ _
      · obtain ⟨m, hm⟩ := Option.isSome_iff_exists.mp hts
        have hmx : m ≠ x.name := by
          intro e
          exact hB t (List.mem_cons_self _ _) (by rw [hm, e])
        rw [show gakGo schema (t :: B') s1.1 (aSet s1.2.1 x.name []) (some x.name) =
            gakGo schema B' s1.1 (aSet (aSet s1.2.1 x.name []) m []) (some m) by
          simp [gakGo, hm]]
        rw [gak_preserve schema x.name B' s1.1 _ (some m)
          (fun t' ht' => hB t' (List.mem_cons_of_mem _ ht')) (by simp [hmx])]
        rw [aGet_aSet_ne _ _ _ _ (Ne.symm hmx)]
        exact aGet_aSet_same _ _ _
    have hnotpk : ¬ x.name ∈ pk.map Prod.fst := by
      intro hmem
      obtain ⟨p, hp, hp1⟩ := List.mem_map.mp hmem
      have hcand := getPositionalKwargs_keys hpk p hp
      obtain ⟨c, hc, hcn⟩ := List.mem_map.mp hcand
      have hcnone := posCandidates_none c hc
      rw [hcn, hp1] at hcnone
      rw [hcnone] at hkw
      exact absurd hkw (by simp)
    rw [kwUpdate_not_mem hnotpk, hkw] at hpl
    unfold Argument.parseList at hpl
    rw [if_pos hxs] at hpl
    simp only [Except.ok.injEq] at hpl
    rw [← hpl] at hget
    exact hget
  · rintro ⟨hnof, hshape⟩
    have hkw : aGet (getArgsKwargs schema toks).2 x.name = Option.none := by
      show aGet (gakGo schema toks [] [] Option.none).2.1 x.name = Option.none
      rw [gak_preserve schema x.name toks [] [] Option.none hnof (by simp)]
      rfl
    have hpos : (getArgsKwargs schema toks).1 = [] := by
      show (gakGo schema toks [] [] Option.none).1 = []
      rcases hshape with rfl | ⟨t, ts, rfl, hts⟩
      · rfl
      · obtain ⟨m, hm⟩ := Option.isSome_iff_exists.mp hts
        rw [show gakGo schema (t :: ts) [] [] Option.none =
            gakGo schema ts [] (aSet [] m []) (some m) by
          simp [gakGo, hm]]
        exact gak_pos_stable schema ts [] _ m
    have hpknil : pk = [] := by
      rw [hpos, getPositionalKwargs_nil] at hpk
      simp only [Except.ok.injEq] at hpk
      exact hpk.symm
    subst hpknil
    rw [show kwUpdate (getArgsKwargs schema toks).2 [] =
        (getArgsKwargs schema toks).2 from rfl, hkw] at hpl
    unfold Argument.parseList at hpl
    have hdef := (isSwitch_parts hxs).2
    rw [if_neg (by rw [hdef]; simp)] at hpl
    simp only [Except.ok.injEq] at hpl
    rw [← hpl] at hget
    rw [hdef] at hget
    exact hget

theorem claimC6switchWitness :
    aGet [("x".toList, Value.sc (.b true))] "x".toList = some (.sc (.b true)) :=
  (claimC6switchAmended c6schema
    { type := .tBool, flags := ["--x".toList, "-x".toList], many := false,
      default := .sc (.b false), valid := Option.none, name := "x".toList,
      positional := true }
    [] [("x".toList, .sc (.b true))] (toksOf ["-x"]) (by decide) (by decide)
    (fun a ha => by
      rcases List.mem_cons.mp ha with h | h
      · subst h
        intro _
        rfl
      · simp at h)
    (List.mem_cons_self _ _) (by decide) (by rfl)).1
    ⟨[], "-x".toList, [], rfl, by decide, by simp, Or.inl rfl⟩

/-! ### Round-trip support: association and intercalate utilities -/

theorem aSet_id {β : Type} : ∀ (l : List (Str × β)) (n : Str) (v : β),
    aGet l n = some v → aSet l n v = l := by
  intro l
  induction l with
  | nil => intro n v h; simp [aGet] at h
  | cons p rest ih =>
    intro n v h
    obtain ⟨m, w⟩ := p
    by_cases hm : m = n
    · subst hm
      simp only [aGet, if_pos, Option.some.injEq] at h
      simp [aSet, h]
    · simp only [aGet, if_neg hm] at h
      simp [aSet, hm, ih _ _ h]

theorem intercalate_one (w : Str) : List.intercalate [' '] [w] = w := by
  simp [List.intercalate]

theorem intercalate_cons_ne (w : Str) {r : List Str} (hr : r ≠ []) :
    List.intercalate [' '] (w :: r) = w ++ ' ' :: List.intercalate [' '] r := by
  cases r with
  | nil => exact absurd rfl hr
  | cons w2 r2 => exact intercalate_cons2 w w2 r2

theorem intercalate_ne_nil {l : List Str} (hl : l ≠ []) (ht : ∀ t ∈ l, t ≠ []) :
    List.intercalate [' '] l ≠ [] := by
  cases l with
  | nil => exact absurd rfl hl
  | cons w r =>
    cases r with
    | nil =>
      rw [intercalate_one]
      exact ht w (List.mem_cons_self _ _)
    | cons w2 r2 =>
      rw [intercalate_cons2]
      simp

theorem intercalate_append_words : ∀ (A : List Str) {B : List Str}, B ≠ [] →
    List.intercalate [' '] (A ++ B) =
      (if A = [] then [] else List.intercalate [' '] A ++ [' ']) ++
        List.intercalate [' '] B := by
  intro A
  induction A with
  | nil =>
    intro B _
    simp
  | cons a A ih =>
    intro B hB
    by_cases hAnil : A = []
    · subst hAnil
      simp only [List.cons_append, List.nil_append]
      rw [intercalate_cons_ne a hB, if_neg (by simp), intercalate_one]
      simp
    · have hABne : A ++ B ≠ [] := fun e => hAnil (List.append_eq_nil.mp e).1
      rw [List.cons_append, intercalate_cons_ne a hABne, ih hB, if_neg hAnil,
        if_neg (by simp), intercalate_cons_ne a hAnil]
      simp

theorem flatten_first {α : Type} :
    ∀ (gs : List (List α)), gs.flatten ≠ [] →
      ∃ g ∈ gs, ∃ t r, g = t :: r ∧ gs.flatten.head? = some t := by
  intro gs
  induction gs with
  | nil => intro h; exact absurd rfl h
  | cons g rest ih =>
    intro h
    cases hg : g with
    | nil =>
      subst hg
      have hr : rest.flatten ≠ [] := by simpa using h
      obtain ⟨g2, hg2, t, r, hgr, hh⟩ := ih hr
      exact ⟨g2, List.mem_cons_of_mem _ hg2, t, r, hgr, by simpa using hh⟩
    | cons t r =>
      refine ⟨t :: r, List.mem_cons_self _ _, t, r, rfl, ?_⟩
      simp

/-! ### Round-trip support: tokens, quoting, and codec inverses -/

theorem quotify_ne_nil (d sep : Char) (t : Str) : quotify d sep t ≠ [] := by
  unfold quotify
  by_cases h : t = [] ∨ sep ∈ t
  · rw [if_pos h]
    simp
  · rw [if_neg h]
    intro e
    exact h (Or.inl e)

theorem quotify_id {d sep : Char} {t : Str} (hne : t ≠ []) (hsep : sep ∉ t) :
    quotify d sep t = t := by
  unfold quotify
  rw [if_neg (by rintro (h1 | h2); exact hne h1; exact hsep h2)]

theorem splitEncode_ne_nil {d : Char} {l : List Str} (hl : l ≠ []) :
    splitEncode d l ≠ [] := by
  unfold splitEncode
  apply intercalate_ne_nil
  · simp [hl]
  · intro t ht
    obtain ⟨x, _, hx⟩ := List.mem_map.mp ht
    rw [← hx]
    exact quotify_ne_nil d ' ' x

theorem goodTok_no_space {t : Str} (h : goodTok t) : ' ' ∉ t := by
  intro hm
  have := (h.2 ' ' hm).1
  simp [isWs] at this

theorem safeTok_good {schema : List Argument} {t : Str}
    (h : safeTokB schema t = true) :
    goodTok t ∧ flagOwner schema t = Option.none := by
  unfold safeTokB at h
  simp only [Bool.and_eq_true, Bool.not_eq_true', List.all_eq_true,
    decide_eq_true_eq, Option.isNone_iff_eq_none] at h
  refine ⟨⟨?_, ?_⟩, h.2⟩
  · intro e
    rw [e] at h
    simp [List.isEmpty] at h
  · intro c hc
    have := h.1.2 c hc
    simp only [Bool.and_eq_true, Bool.not_eq_true', decide_eq_true_eq] at this
    exact this

theorem flagOK_parts {f : Str} (h : flagOK f = true) :
    f ≠ [] ∧ f.head? = some '-' ∧ (∀ c ∈ f, isWs c = false ∧ c ≠ '"') ∧
      f ≠ "--help".toList ∧ f ≠ "--gui".toList := by
  unfold flagOK at h
  simp only [Bool.and_eq_true, decide_eq_true_eq, List.all_eq_true,
    Bool.not_eq_true'] at h
  obtain ⟨⟨⟨⟨hlen, hhd⟩, hall⟩, hh⟩, hg⟩ := h
  refine ⟨?_, hhd, ?_, hh, hg⟩
  · intro e
    rw [e] at hlen
    simp at hlen
  · intro c hc
    have := hall c hc
    simp only [Bool.and_eq_true, Bool.not_eq_true', decide_eq_true_eq] at this
    exact this

theorem flagOK_good {f : Str} (h : flagOK f = true) : goodTok f :=
  ⟨(flagOK_parts h).1, (flagOK_parts h).2.2.1⟩

theorem flagOwner_none_of_head {schema : List Argument}
    (hok : ∀ b ∈ schema, ∀ f ∈ b.flags, flagOK f = true)
    {t : Str} (ht : t.head? ≠ some '-') : flagOwner schema t = Option.none := by
  unfold flagOwner
  apply fo_skip
  intro b hb hf
  exact ht ((flagOK_parts (hok b hb t hf)).2.1)

theorem encodeBool_head (b : Bool) : (encodeBool b).head? ≠ some '-' := by
  cases b <;> decide

theorem pickFlag_foldl_mem (short : Bool) : ∀ (fs : List Str) (f : Str),
    fs.foldl
      (fun acc x =>
        if (if short then x.length < acc.length else acc.length < x.length)
        then x else acc) f ∈ f :: fs := by
  intro fs
  induction fs with
  | nil => intro f; simp
  | cons x fs ih =>
    intro f
    simp only [List.foldl_cons]
    by_cases hc : (if short then x.length < f.length else f.length < x.length)
    · rw [if_pos hc]
      rcases List.mem_cons.mp (ih x) with h | h
      · simp [h]
      · simp [List.mem_cons, h]
    · rw [if_neg hc]
      rcases List.mem_cons.mp (ih f) with h | h
      · simp [h]
      · simp [List.mem_cons, h]

theorem pickFlag_mem {fs : List Str} (h : fs ≠ []) (short : Bool) :
    pickFlag short fs ∈ fs := by
  cases fs with
  | nil => exact absurd rfl h
  | cons f fs =>
    have := pickFlag_foldl_mem short fs f
    simpa [pickFlag] using this

theorem pencodeS_s {a : Argument} (hty : a.type = .tStr) (s : Str) :
    a.pencodeS (.s s) = s := by
  simp [Argument.pencodeS, hty, pyStrS]

theorem pencodeS_i {a : Argument} (hty : a.type = .tInt) (n : Int) :
    a.pencodeS (.i n) = intEncode n := by
  simp [Argument.pencodeS, hty, pyStrS]

theorem pencodeS_b {a : Argument} (hty : a.type = .tBool) (b : Bool) :
    a.pencodeS (.b b) = encodeBool b := by
  simp [Argument.pencodeS, hty, truthyS]

theorem pdecodeS_pencodeS {a : Argument} {x : Scalar}
    (h : scalarTy x = a.type) : a.pdecodeS (a.pencodeS x) = .ok x := by
  cases x with
  | s s =>
    have hty : a.type = .tStr := h.symm
    rw [pencodeS_s hty]
    simp [Argument.pdecodeS, hty]
  | i n =>
    have hty : a.type = .tInt := h.symm
    rw [pencodeS_i hty]
    simp [Argument.pdecodeS, hty, pyIntOfStr_intEncode, Except.map]
  | b b =>
    have hty : a.type = .tBool := h.symm
    rw [pencodeS_b hty]
    simp [Argument.pdecodeS, hty, parseBool_encodeBool, Except.map]

theorem mapM_pdecodeS_pencodeS {a : Argument} :
    ∀ {xs : List Scalar}, (∀ x ∈ xs, scalarTy x = a.type) →
      (xs.map a.pencodeS).mapM a.pdecodeS = .ok xs := by
  intro xs
  induction xs with
  | nil => intro _; rfl
  | cons x xr ih =>
    intro h
    rw [List.map_cons, List.mapM_cons,
      pdecodeS_pencodeS (h x (List.mem_cons_self _ _)),
      ih (fun y hy => h y (List.mem_cons_of_mem _ hy))]
    rfl

theorem encode_sc {a : Argument} (hm : a.many = false) (x : Scalar) :
    a.encode (.sc x) = a.pencodeS x := by
  simp [Argument.encode, hm]

theorem encode_list {a : Argument} (hm : a.many = true) (xs : List Scalar) :
    a.encode (.vList xs) = splitEncode '"' (xs.map a.pencodeS) := by
  simp [Argument.encode, hm]

theorem map_id_of_forall {α : Type} {f : α → α} :
    ∀ {l : List α}, (∀ x ∈ l, f x = x) → l.map f = l := by
  intro l
  induction l with
  | nil => intro _; rfl
  | cons x r ih =>
    intro h
    rw [List.map_cons, h x (List.mem_cons_self _ _),
      ih (fun y hy => h y (List.mem_cons_of_mem _ hy))]

/-- Per-argument analysis of the rendered fragment: the fragment string is
the space-join of its tokens, all tokens survive re-tokenizing, an empty
fragment re-parses (via the absent-flag path) to the same value, and a
nonempty fragment is one owned flag followed by value tokens that re-decode
to the same value. -/
theorem frag_spec {schema : List Argument} {a : Argument} {v : Value}
    (hmem : a ∈ schema)
    (hflne : a.flags ≠ [])
    (hfokAll : ∀ b ∈ schema, ∀ f ∈ b.flags, flagOK f = true)
    (hswm : a.isSwitch = true → a.many = false)
    (hty : v = a.default ∨ wellTypedV a v)
    (hdefa : a.default = .vNone ∨ a.default = .vList [] ∨ wellTypedV a a.default ∨
      a.default = .vMissing)
    (hsafe : safeValB schema a v = true) :
    fragStr a v = List.intercalate [' '] (fragToks a v) ∧
    (∀ t ∈ fragToks a v, goodTok t) ∧
    (fragToks a v = [] → a.parseList Option.none = .ok v) ∧
    (fragToks a v ≠ [] →
      ∃ f, f ∈ a.flags ∧ fragToks a v = f :: bucketToks a v ∧
        (∀ t ∈ bucketToks a v, flagOwner schema t = Option.none) ∧
        a.parseList (some (bucketToks a v)) = .ok v) := by
  have hfoka : ∀ f ∈ a.flags, flagOK f = true := hfokAll a hmem
  have hpfm : pickFlag false a.flags ∈ a.flags := pickFlag_mem hflne false
  have hvne : v ≠ .vMissing := by
    intro e; rw [e] at hsafe; simp [safeValB] at hsafe
  by_cases hs : a.isSwitch = true
  · have hmany := hswm hs
    obtain ⟨htyB, hdefB⟩ := isSwitch_parts hs
    by_cases ht : truthy v = true
    · have hv : v = .sc (.b true) := by
        rcases hty with h1 | h2
        · rw [h1, hdefB] at ht; simp [truthy, truthyS] at ht
        · unfold wellTypedV at h2
          rw [if_neg (by simp [hmany])] at h2
          obtain ⟨x, rfl, hx⟩ := h2
          rw [htyB] at hx
          cases x with
          | s s => simp [scalarTy] at hx
          | i n => simp [scalarTy] at hx
          | b b =>
            simp only [truthy, truthyS] at ht
            rw [ht]
      have hfr : fragToks a v = [pickFlag false a.flags] := by
        unfold fragToks; rw [if_pos hs, if_pos ht]
      have hbk : bucketToks a v = [] := by
        unfold bucketToks; rw [if_pos hs]
      refine ⟨?_, ?_, ?_, ?_⟩
      · unfold fragStr
        rw [if_pos hs, if_pos ht, hfr, intercalate_one]
      · intro t htm
        rw [hfr] at htm
        simp only [List.mem_singleton] at htm
        subst htm
        exact flagOK_good (hfoka _ hpfm)
      · intro h0
        rw [hfr] at h0; simp at h0
      · intro _
        refine ⟨pickFlag false a.flags, hpfm, by rw [hfr, hbk], ?_, ?_⟩
        · rw [hbk]; intro t htm; simp at htm
        · rw [hbk, hv]
          simp [Argument.parseList, hs]
    · have ht2 : truthy v = false := by simpa using ht
      have hv : v = .sc (.b false) := by
        rcases hty with h1 | h2
        · rw [h1, hdefB]
        · unfold wellTypedV at h2
          rw [if_neg (by simp [hmany])] at h2
          obtain ⟨x, rfl, hx⟩ := h2
          rw [htyB] at hx
          cases x with
          | s s => simp [scalarTy] at hx
          | i n => simp [scalarTy] at hx
          | b b =>
            simp only [truthy, truthyS] at ht2
            rw [ht2]
      have hfr : fragToks a v = [] := by
        unfold fragToks; rw [if_pos hs, if_neg ht]
      refine ⟨?_, ?_, ?_, ?_⟩
      · unfold fragStr
        rw [if_pos hs, if_neg ht, hfr]
        rfl
      · intro t htm; rw [hfr] at htm; simp at htm
      · intro _
        simp [Argument.parseList, hdefB, hv]
      · intro hne; exact absurd hfr hne
  · by_cases he : a.encode v = []
    · have hfr : fragToks a v = [] := by
        unfold fragToks; rw [if_neg hs, if_pos he]
      have hvd : v = a.default := by
        cases v with
        | vMissing => exact absurd rfl hvne
        | vNone =>
          simp only [safeValB, decide_eq_true_eq] at hsafe
          exact hsafe.symm
        | sc x =>
          by_cases hm : a.many = true
          · rcases hty with h1 | h2
            · exact h1
            · unfold wellTypedV at h2
              rw [if_pos hm] at h2
              obtain ⟨xs, hx, _⟩ := h2
              exact absurd hx (by simp)
          · have hm' : a.many = false := by revert hm; cases a.many <;> simp
            rw [encode_sc hm'] at he
            rcases hty with h1 | h1
            · exact h1
            · unfold wellTypedV at h1
              rw [if_neg (by simp [hm'])] at h1
              obtain ⟨y, hy, hyt⟩ := h1
              injection hy with hxy
              subst hxy
              cases x with
              | s s =>
                have htyS : a.type = .tStr := hyt.symm
                rw [pencodeS_s htyS] at he
                subst he
                simp only [safeValB] at hsafe
                simp at hsafe
                exact hsafe.symm
              | i n =>
                rw [pencodeS_i hyt.symm] at he
                exact absurd he (intEncode_props n).1
              | b b =>
                rw [pencodeS_b hyt.symm] at he
                exact absurd he (encodeBool_props b).1
        | vList xs =>
          cases xs with
          | nil =>
            simp only [safeValB, decide_eq_true_eq] at hsafe
            exact hsafe.symm
          | cons x0 xr =>
            by_cases hm : a.many = true
            · rw [encode_list hm] at he
              exact absurd he (splitEncode_ne_nil (by simp))
            · rcases hty with h1 | h1
              · exact h1
              · unfold wellTypedV at h1
                rw [if_neg hm] at h1
                obtain ⟨y, hy, _⟩ := h1
                exact absurd hy (by simp)
      have hdne : a.default ≠ .vMissing := by rw [← hvd]; exact hvne
      refine ⟨?_, ?_, ?_, ?_⟩
      · unfold fragStr
        rw [if_neg hs, if_pos he, hfr]
        rfl
      · intro t htm; rw [hfr] at htm; simp at htm
      · intro _
        simp [Argument.parseList, hdne, hvd]
      · intro hne; exact absurd hfr hne
    · cases v with
      | vNone => exact absurd (by simp [Argument.encode] : a.encode .vNone = []) he
      | vMissing => exact absurd rfl hvne
      | sc x =>
        have hm' : a.many = false := by
          by_contra hmc
          have hm : a.many = true := by revert hmc; cases a.many <;> simp
          exact he (by simp [Argument.encode, hm])
        have htyx : scalarTy x = a.type := by
          rcases hty with h1 | h1
          · rcases hdefa with hd | hd | hd | hd
            · rw [hd] at h1; simp at h1
            · rw [hd] at h1; simp at h1
            · rw [← h1] at hd
              unfold wellTypedV at hd
              rw [if_neg (by simp [hm'])] at hd
              obtain ⟨y, hy, hyt⟩ := hd
              injection hy with hxy
              rw [hxy]; exact hyt
            · rw [hd] at h1; simp at h1
          · unfold wellTypedV at h1
            rw [if_neg (by simp [hm'])] at h1
            obtain ⟨y, hy, hyt⟩ := h1
            injection hy with hxy
            rw [hxy]; exact hyt
        have henc : a.encode (.sc x) = a.pencodeS x := encode_sc hm' x
        have htokne : a.pencodeS x ≠ [] := by rw [← henc]; exact he
        have hgood : goodTok (a.pencodeS x) ∧
            flagOwner schema (a.pencodeS x) = Option.none := by
          cases x with
          | s s =>
            have htyS : a.type = .tStr := htyx.symm
            rw [pencodeS_s htyS] at htokne ⊢
            simp only [safeValB] at hsafe
            rw [if_neg htokne] at hsafe
            exact safeTok_good hsafe
          | i n =>
            rw [pencodeS_i htyx.symm]
            simp only [safeValB] at hsafe
            exact safeTok_good hsafe
          | b b =>
            rw [pencodeS_b htyx.symm]
            exact ⟨⟨(encodeBool_props b).1,
              fun c hc => ⟨((encodeBool_props b).2 c hc).1,
                ((encodeBool_props b).2 c hc).2.1⟩⟩,
              flagOwner_none_of_head hfokAll (encodeBool_head b)⟩
        have hvt : valToks a (.sc x) = [a.pencodeS x] := rfl
        have hfr : fragToks a (.sc x) = pickFlag false a.flags :: [a.pencodeS x] := by
          unfold fragToks
          rw [if_neg hs, if_neg he, hvt]
        have hbk : bucketToks a (.sc x) = [a.pencodeS x] := by
          unfold bucketToks
          rw [if_neg hs, hvt]
        refine ⟨?_, ?_, ?_, ?_⟩
        · unfold fragStr
          rw [if_neg hs, if_neg he, hfr, intercalate_cons2, intercalate_one, henc]
        · intro t htm
          rw [hfr] at htm
          rcases List.mem_cons.mp htm with h1 | h1
          · subst h1; exact flagOK_good (hfoka _ hpfm)
          · simp only [List.mem_singleton] at h1
            subst h1; exact hgood.1
        · intro h0; rw [hfr] at h0; simp at h0
        · intro _
          refine ⟨pickFlag false a.flags, hpfm, by rw [hfr, hbk], ?_, ?_⟩
          · rw [hbk]
            intro t htm
            simp only [List.mem_singleton] at htm
            subst htm
            exact hgood.2
          · rw [hbk]
            have hcall : a.parseList (some [a.pencodeS x]) =
                a.decode (.str (a.pencodeS x)) := by
              simp [Argument.parseList, hm']
            rw [hcall]
            unfold Argument.decode
            rw [if_neg (by simp [hm'])]
            dsimp only
            rw [if_neg (by rintro ⟨_, h2⟩; exact htokne h2),
              pdecodeS_pencodeS htyx]
            rfl
      | vList xs =>
        have hm : a.many = true := by
          by_contra hmc
          have hm' : a.many = false := by revert hmc; cases a.many <;> simp
          exact he (by simp [Argument.encode, hm'])
        have hxsne : xs ≠ [] := by
          intro e; subst e
          rw [encode_list hm] at he
          exact he rfl
        have htys : ∀ y ∈ xs, scalarTy y = a.type := by
          rcases hty with h1 | h1
          · rcases hdefa with hd | hd | hd | hd
            · rw [hd] at h1; simp at h1
            · rw [hd] at h1
              injection h1 with hxs0
              exact absurd hxs0 hxsne
            · rw [← h1] at hd
              unfold wellTypedV at hd
              rw [if_pos hm] at hd
              obtain ⟨ys, hys, _, hall⟩ := hd
              injection hys with hxy
              intro y hy
              exact hall y (hxy ▸ hy)
            · rw [hd] at h1; simp at h1
          · unfold wellTypedV at h1
            rw [if_pos hm] at h1
            obtain ⟨ys, hys, _, hall⟩ := h1
            injection hys with hxy
            intro y hy
            exact hall y (hxy ▸ hy)
        have hsafetoks : ∀ y ∈ xs, safeTokB schema (a.pencodeS y) = true := by
          cases xs with
          | nil => exact absurd rfl hxsne
          | cons x0 xr =>
            simp only [safeValB, List.all_eq_true] at hsafe
            exact hsafe
        have hgoods : ∀ y ∈ xs, goodTok (a.pencodeS y) ∧
            flagOwner schema (a.pencodeS y) = Option.none :=
          fun y hy => safeTok_good (hsafetoks y hy)
        have hvt : valToks a (.vList xs) = xs.map a.pencodeS := rfl
        have henc : a.encode (.vList xs) =
            List.intercalate [' '] (xs.map a.pencodeS) := by
          rw [encode_list hm]
          unfold splitEncode
          rw [map_id_of_forall (by
            intro t ht2
            obtain ⟨y, hy, rfl⟩ := List.mem_map.mp ht2
            exact quotify_id (hgoods y hy).1.1 (goodTok_no_space (hgoods y hy).1))]
        have hfr : fragToks a (.vList xs) =
            pickFlag false a.flags :: xs.map a.pencodeS := by
          unfold fragToks
          rw [if_neg hs, if_neg he, hvt]
        have hbk : bucketToks a (.vList xs) = xs.map a.pencodeS := by
          unfold bucketToks
          rw [if_neg hs, hvt]
        have hmapne : xs.map a.pencodeS ≠ [] := by
          cases xs with
          | nil => exact absurd rfl hxsne
          | cons x0 xr => simp
        refine ⟨?_, ?_, ?_, ?_⟩
        · unfold fragStr
          rw [if_neg hs, if_neg he, hfr, intercalate_cons_ne _ hmapne, henc]
        · intro t htm
          rw [hfr] at htm
          rcases List.mem_cons.mp htm with h1 | h1
          · subst h1; exact flagOK_good (hfoka _ hpfm)
          · obtain ⟨y, hy, rfl⟩ := List.mem_map.mp h1
            exact (hgoods y hy).1
        · intro h0; rw [hfr] at h0; simp at h0
        · intro _
          refine ⟨pickFlag false a.flags, hpfm, by rw [hfr, hbk], ?_, ?_⟩
          · rw [hbk]
            intro t htm
            obtain ⟨y, hy, rfl⟩ := List.mem_map.mp htm
            exact (hgoods y hy).2
          · rw [hbk]
            obtain ⟨x0, xr, rfl⟩ : ∃ x0 xr, xs = x0 :: xr := by
              cases xs with
              | nil => exact absurd rfl hxsne
              | cons x0 xr => exact ⟨x0, xr, rfl⟩
            rw [List.map_cons]
            have hcall : a.parseList (some (a.pencodeS x0 :: xr.map a.pencodeS)) =
                a.decode (.list (a.pencodeS x0 :: xr.map a.pencodeS)) := by
              simp [Argument.parseList, hm]
            rw [hcall]
            unfold Argument.decode
            rw [if_pos hm]
            dsimp only
            rw [if_neg (by simp : ¬ (a.pencodeS x0 :: xr.map a.pencodeS) = [])]
            have hmm : (a.pencodeS x0 :: xr.map a.pencodeS).mapM a.pdecodeS =
                .ok (x0 :: xr) := by
              have h0 := mapM_pdecodeS_pencodeS htys
              simpa using h0
            rw [hmm]
            rfl

/-! ### Re-collecting the rendered fragments -/

theorem kwApp_aSet : ∀ (kw : KW) (n : Str) (b : List Str) (t : Str),
    kwApp (aSet kw n b) n t = aSet kw n (b ++ [t]) := by
  intro kw
  induction kw with
  | nil => intro n b t; simp [aSet, kwApp]
  | cons p rest ih =>
    intro n b t
    obtain ⟨m, w⟩ := p
    by_cases hm : m = n
    · subst hm
      simp [aSet, kwApp]
    · simp [aSet, hm, kwApp, ih]

theorem foldl_kwApp_aSet (n : Str) :
    ∀ (vals : List Str) (kw : KW) (b : List Str),
      vals.foldl (fun k t => kwApp k n t) (aSet kw n b) = aSet kw n (b ++ vals) := by
  intro vals
  induction vals with
  | nil => intro kw b; simp
  | cons t ts ih =>
    intro kw b
    simp only [List.foldl_cons]
    rw [kwApp_aSet, ih]
    simp

theorem gakGo_vals (schema : List Argument) (n : Str) :
    ∀ (vals B pos : List Str) (kw : KW),
      (∀ t ∈ vals, flagOwner schema t = Option.none) →
      gakGo schema (vals ++ B) pos kw (some n) =
        gakGo schema B pos (vals.foldl (fun k t => kwApp k n t) kw) (some n) := by
  intro vals
  induction vals with
  | nil => intro B pos kw _; rfl
  | cons t ts ih =>
    intro B pos kw h
    have ht := h t (List.mem_cons_self _ _)
    simp only [List.cons_append, gakGo, ht, List.foldl_cons]
    exact ih B pos (kwApp kw n t) (fun x hx => h x (List.mem_cons_of_mem _ hx))

theorem gak_frag_step {schema : List Argument} {a : Argument} {v : Value}
    (hsh : fragToks a v = [] ∨
      (∃ f, f ∈ a.flags ∧ flagOwner schema f = some a.name ∧
        fragToks a v = f :: bucketToks a v ∧
        (∀ t ∈ bucketToks a v, flagOwner schema t = Option.none))) :
    ∀ (B pos : List Str) (kw : KW) (cur : Option Str),
      gakGo schema (fragToks a v ++ B) pos kw cur =
        gakGo schema B pos
          (if fragToks a v = [] then kw else aSet kw a.name (bucketToks a v))
          (if fragToks a v = [] then cur else some a.name) := by
  intro B pos kw cur
  rcases hsh with h0 | ⟨f, hf, hfo, hsh, hbk⟩
  · rw [h0, if_pos rfl, if_pos rfl]; rfl
  · have hne : fragToks a v ≠ [] := by rw [hsh]; simp
    rw [hsh, if_neg (by simp : ¬ f :: bucketToks a v = []),
      if_neg (by simp : ¬ f :: bucketToks a v = []), List.cons_append]
    simp only [gakGo, hfo]
    rw [gakGo_vals schema a.name _ B pos _ hbk]
    have hfold := foldl_kwApp_aSet a.name (bucketToks a v) kw []
    simp only [List.nil_append] at hfold
    rw [hfold]

theorem gak_frags {schema : List Argument} (vf : Argument → Value) :
    ∀ (args : List Argument),
      (∀ a ∈ args, fragToks a (vf a) = [] ∨
        (∃ f, f ∈ a.flags ∧ flagOwner schema f = some a.name ∧
          fragToks a (vf a) = f :: bucketToks a (vf a) ∧
          (∀ t ∈ bucketToks a (vf a), flagOwner schema t = Option.none))) →
      ∀ (pos : List Str) (kw : KW) (cur : Option Str),
        ∃ cur2,
          gakGo schema ((args.map (fun a => fragToks a (vf a))).flatten) pos kw cur =
            (pos, args.foldl (bucketStep vf) kw, cur2) := by
  intro args
  induction args with
  | nil => intro _ pos kw cur; exact ⟨cur, rfl⟩
  | cons a rest ih =>
    intro h pos kw cur
    rw [List.map_cons, List.flatten_cons]
    rw [gak_frag_step (h a (List.mem_cons_self _ _))]
    obtain ⟨cur2, hrec⟩ := ih (fun b hb => h b (List.mem_cons_of_mem _ hb)) pos
      (if fragToks a (vf a) = [] then kw else aSet kw a.name (bucketToks a (vf a)))
      (if fragToks a (vf a) = [] then cur else some a.name)
    refine ⟨cur2, ?_⟩
    rw [hrec]
    simp only [List.foldl_cons]
    rfl

theorem foldKW_preserve (vf : Argument → Value) :
    ∀ (args : List Argument) (kw : KW) (n : Str),
      ¬ n ∈ args.map (fun x => x.name) →
      aGet (args.foldl (bucketStep vf) kw) n = aGet kw n := by
  intro args
  induction args with
  | nil => intro kw n _; rfl
  | cons b rest ih =>
    intro kw n hn
    simp only [List.map_cons, List.mem_cons, not_or] at hn
    simp only [List.foldl_cons]
    rw [ih _ n hn.2]
    unfold bucketStep
    by_cases h0 : fragToks b (vf b) = []
    · rw [if_pos h0]
    · rw [if_neg h0, aGet_aSet_ne _ _ _ _ hn.1]

theorem foldKW_get (vf : Argument → Value) :
    ∀ (args : List Argument) (kw : KW) (a : Argument),
      a ∈ args → (args.map (fun x => x.name)).Nodup →
      aGet (args.foldl (bucketStep vf) kw) a.name =
        if fragToks a (vf a) = [] then aGet kw a.name
        else some (bucketToks a (vf a)) := by
  intro args
  induction args with
  | nil => intro kw a ha; simp at ha
  | cons b rest ih =>
    intro kw a ha hnd
    simp only [List.map_cons, List.nodup_cons] at hnd
    simp only [List.foldl_cons]
    rcases List.mem_cons.mp ha with h1 | h1
    · subst h1
      rw [foldKW_preserve vf rest _ _ hnd.1]
      unfold bucketStep
      by_cases h0 : fragToks a (vf a) = []
      · rw [if_pos h0, if_pos h0]
      · rw [if_neg h0, if_neg h0, aGet_aSet_same]
    · have hbn : b.name ≠ a.name := by
        intro e
        exact hnd.1 (e ▸ List.mem_map_of_mem _ h1)
      rw [ih _ a h1 hnd.2]
      have hstep : aGet (bucketStep vf kw b) a.name = aGet kw a.name := by
        unfold bucketStep
        by_cases h0 : fragToks b (vf b) = []
        · rw [if_pos h0]
        · rw [if_neg h0, aGet_aSet_ne _ _ _ _ (Ne.symm hbn)]
      rw [hstep]

/-! ### Rendering the command line and re-applying the parse -/

theorem intercalate_flatten_groups :
    ∀ (gs : List (List Str)), (∀ g ∈ gs, ∀ t ∈ g, t ≠ []) →
      List.intercalate [' ']
        ((gs.map (List.intercalate [' '])).filter (fun c => c ≠ [])) =
      List.intercalate [' '] gs.flatten := by
  intro gs
  induction gs with
  | nil => intro _; rfl
  | cons g rest ih =>
    intro h
    have hrest := ih (fun g2 hg2 => h g2 (List.mem_cons_of_mem _ hg2))
    simp only [List.map_cons, List.flatten_cons]
    by_cases hgnil : g = []
    · subst hgnil
      rw [show List.intercalate [' '] ([] : List Str) = [] from rfl]
      rw [List.filter_cons_of_neg (by simp)]
      simpa using hrest
    · have hIgne : List.intercalate [' '] g ≠ [] :=
        intercalate_ne_nil hgnil (h g (List.mem_cons_self _ _))
      rw [List.filter_cons_of_pos (by simpa using hIgne)]
      by_cases hfl : rest.flatten = []
      · have hallnil : ∀ g2 ∈ rest, g2 = [] := List.flatten_eq_nil_iff.mp hfl
        have hfilnil :
            (rest.map (List.intercalate [' '])).filter (fun c => c ≠ []) = [] := by
          rw [List.filter_eq_nil_iff]
          intro c hc
          obtain ⟨g2, hg2, rfl⟩ := List.mem_map.mp hc
          rw [hallnil g2 hg2,
            show List.intercalate [' '] ([] : List Str) = [] from rfl]
          simp
        rw [hfilnil, hfl, intercalate_one]
        simp
      · have hflne : List.intercalate [' '] rest.flatten ≠ [] := by
          apply intercalate_ne_nil hfl
          intro t ht
          obtain ⟨g2, hg2, ht2⟩ := List.mem_flatten.mp ht
          exact h g2 (List.mem_cons_of_mem _ hg2) t ht2
        have hfilne :
            (rest.map (List.intercalate [' '])).filter (fun c => c ≠ []) ≠ [] := by
          intro e
          rw [e] at hrest
          exact hflne hrest.symm
        rw [intercalate_cons_ne _ hfilne, hrest, intercalate_append_words g hfl,
          if_neg hgnil]
        simp

theorem updateSeq_id (schema : List Argument) :
    ∀ (kvs : List (Str × Value)) (st : Store),
      (∀ p ∈ kvs, ∃ a, schema.find? (fun x => x.name = p.1) = some a ∧
        a.validate p.2 = .ok p.2 ∧ aGet st p.1 = some p.2) →
      updateSeq schema st kvs = .ok st := by
  intro kvs
  induction kvs with
  | nil => intro st _; rfl
  | cons p rest ih =>
    intro st h
    obtain ⟨n, v⟩ := p
    obtain ⟨a, hfind, hval, hget⟩ := h (n, v) (List.mem_cons_self _ _)
    have hname : a.name = n := by
      have := List.find?_some hfind
      simpa using this
    unfold updateSeq
    rw [hfind]
    dsimp only
    unfold Argument.setVal
    rw [hval]
    dsimp only
    rw [hname, aSet_id st n v hget]
    exact ih st (fun q hq => h q (List.mem_cons_of_mem _ hq))

theorem commandAux_present :
    ∀ (args : List Argument) (st : Store),
      (∀ a ∈ args, (aGet st a.name).isSome) →
      commandAux false args st =
        .ok (args.map (fun a => fragStr a (valOf st a)), st) := by
  intro args
  induction args with
  | nil => intro st _; rfl
  | cons a rest ih =>
    intro st h
    have ha := h a (List.mem_cons_self _ _)
    obtain ⟨v, hv⟩ : ∃ v, aGet st a.name = some v := by
      cases hg : aGet st a.name with
      | none => rw [hg] at ha; simp at ha
      | some v => exact ⟨v, rfl⟩
    have hgv : a.getVal st = .ok (v, st) := by
      unfold Argument.getVal
      rw [hv]
    have hfragv : a.cmdFragment st false = .ok (fragStr a v, st) := by
      unfold Argument.cmdFragment
      rw [hgv]
      dsimp only
      unfold fragStr
      by_cases hs : a.isSwitch = true
      · rw [if_pos hs, if_pos hs]
        by_cases ht : truthy v = true
        · rw [if_pos ht, if_pos ht]
        · rw [if_neg ht, if_neg ht]
      · rw [if_neg hs, if_neg hs]
        by_cases he : a.encode v = []
        · rw [if_pos he, if_pos he]
        · rw [if_neg he, if_neg he]
          simp
    have hvv : valOf st a = v := by unfold valOf; rw [hv]; rfl
    unfold commandAux
    rw [hfragv]
    dsimp only
    rw [ih st (fun b hb => h b (List.mem_cons_of_mem _ hb))]
    dsimp only
    rw [List.map_cons, hvv]

/-- Re-running `_parse_list` on the concatenated rendered fragments of a
store restores exactly that store. -/
theorem reparse_fragments {schema : List Argument} {st : Store}
    (hnd : (schema.map (fun a => a.name)).Nodup)
    (hfl : ((schema.map (fun a => a.flags)).flatten).Nodup)
    (hprops : ∀ a ∈ schema,
      aGet st a.name = some (valOf st a) ∧
      a.validate (valOf st a) = .ok (valOf st a) ∧
      (fragToks a (valOf st a) = [] → a.parseList Option.none = .ok (valOf st a)) ∧
      (fragToks a (valOf st a) ≠ [] →
        ∃ f, f ∈ a.flags ∧
          fragToks a (valOf st a) = f :: bucketToks a (valOf st a) ∧
          (∀ t ∈ bucketToks a (valOf st a), flagOwner schema t = Option.none) ∧
          a.parseList (some (bucketToks a (valOf st a))) = .ok (valOf st a))) :
    runParseList schema st
      ((schema.map (fun a => fragToks a (valOf st a))).flatten) = .ok st := by
  have hshape : ∀ a ∈ schema, fragToks a (valOf st a) = [] ∨
      (∃ f, f ∈ a.flags ∧ flagOwner schema f = some a.name ∧
        fragToks a (valOf st a) = f :: bucketToks a (valOf st a) ∧
        (∀ t ∈ bucketToks a (valOf st a), flagOwner schema t = Option.none)) := by
    intro a ha
    by_cases h0 : fragToks a (valOf st a) = []
    · exact Or.inl h0
    · obtain ⟨f, hf, hcons, hbk, _⟩ := (hprops a ha).2.2.2 h0
      exact Or.inr ⟨f, hf, flagOwner_unique hfl ha hf, hcons, hbk⟩
  obtain ⟨cur2, hgak⟩ := gak_frags (valOf st) schema hshape [] [] Option.none
  have hga : getArgsKwargs schema
      ((schema.map (fun a => fragToks a (valOf st a))).flatten) =
      ([], schema.foldl (bucketStep (valOf st)) []) := by
    unfold getArgsKwargs
    rw [hgak]
  have hbucket : ∀ a ∈ schema,
      a.parseList (aGet (schema.foldl (bucketStep (valOf st)) []) a.name) =
        .ok (valOf st a) := by
    intro a ha
    rw [foldKW_get (valOf st) schema [] a ha hnd]
    by_cases h0 : fragToks a (valOf st a) = []
    · rw [if_pos h0]
      exact (hprops a ha).2.2.1 h0
    · rw [if_neg h0]
      obtain ⟨f, _, _, _, hpl⟩ := (hprops a ha).2.2.2 h0
      exact hpl
  have hcore : parseListCore schema
      ((schema.map (fun a => fragToks a (valOf st a))).flatten) =
      .ok (schema.map (fun a => (a.name, valOf st a))) := by
    rw [parseListCore_eq, hga]
    dsimp only
    rw [getPositionalKwargs_nil]
    dsimp only
    apply mapM_ok_of_forall
    intro a ha
    rw [show kwUpdate (schema.foldl (bucketStep (valOf st)) []) [] =
        schema.foldl (bucketStep (valOf st)) [] from rfl]
    rw [hbucket a ha]
    rfl
  unfold runParseList
  rw [hcore]
  dsimp only
  apply updateSeq_id
  intro p hp
  obtain ⟨a, ha, hpa⟩ := List.mem_map.mp hp
  refine ⟨a, ?_, ?_, ?_⟩
  · rw [← hpa]
    exact find?_name_of_nodup hnd ha
  · rw [← hpa]
    exact (hprops a ha).2.1
  · rw [← hpa]
    exact (hprops a ha).1

/-- C1 (amended): for a well-formed schema (distinct names; globally
distinct, dash-initial, whitespace/quote-free flags other than
`--help`/`--gui`; no `many` switch), normalized defaults, and an entry-file
name that does not look like a flag, any store produced by a successful
`_parse_list` whose values render only to safe tokens (nonempty, free of
whitespace and quotes, not recognized flags, with empty renderings only for
default values) yields a `command()` string that re-parses to exactly the
same store. The unamended round-trip fails for a single-arity `str` value
containing a space (see the counterexample). -/
theorem claimC1roundtripAmended (schema : List Argument) (entry : List Str)
    (st st' : Store) (toks : List Str)
    (hwf : wfSchemaB schema = true)
    (hentry : entryOKB entry = true)
    (hdef : ∀ a ∈ schema, a.default = .vNone ∨ a.default = .vList [] ∨
      wellTypedV a a.default ∨ a.default = .vMissing)
    (hok : runParseList schema st toks = .ok st')
    (hsafe : safeStoreB schema st' = true) :
    ∃ c, commandOf schema st' false = some c ∧
      callParse schema entry st' c = .ok st' := by
  have hwf2 := hwf
  unfold wfSchemaB at hwf2
  simp only [Bool.and_eq_true, decide_eq_true_eq, List.all_eq_true] at hwf2
  obtain ⟨⟨hnd, hfl⟩, hper⟩ := hwf2
  have hflne : ∀ a ∈ schema, a.flags ≠ [] := by
    intro a ha
    have h1 := hper a ha
    simp only [Bool.and_eq_true] at h1
    intro e
    have h2 := h1.1.1
    rw [e] at h2
    simp [List.isEmpty] at h2
  have hfokAll : ∀ b ∈ schema, ∀ f ∈ b.flags, flagOK f = true := by
    intro b hb f hf
    have h1 := hper b hb
    simp only [Bool.and_eq_true, List.all_eq_true] at h1
    exact h1.1.2 f hf
  have hswm : ∀ a ∈ schema, a.isSwitch = true → a.many = false := by
    intro a ha hs
    have h1 := hper a ha
    simp only [Bool.and_eq_true] at h1
    have h2 := h1.2
    rw [hs] at h2
    simpa using h2
  obtain ⟨pk0, hpk0, hvals, _⟩ := runParseList_ok_get hnd hswm hok
  have hstore : ∀ a ∈ schema, aGet st' a.name = some (valOf st' a) ∧
      (valOf st' a = a.default ∨ wellTypedV a (valOf st' a)) ∧
      a.validate (valOf st' a) = .ok (valOf st' a) := by
    intro a ha
    obtain ⟨v, hpl, hval, hget⟩ := hvals a ha
    have hvv : valOf st' a = v := by unfold valOf; rw [hget]; rfl
    rw [hvv]
    exact ⟨hget, parseList_ty (hswm a ha) hpl, hval⟩
  have hsafeV : ∀ a ∈ schema, safeValB schema a (valOf st' a) = true := by
    intro a ha
    have h1 := hsafe
    unfold safeStoreB at h1
    simp only [List.all_eq_true] at h1
    have h2 := h1 a ha
    rw [(hstore a ha).1] at h2
    exact h2
  have hfrag := fun a (ha : a ∈ schema) =>
    frag_spec ha (hflne a ha) hfokAll (hswm a ha) (hstore a ha).2.1
      (hdef a ha) (hsafeV a ha)
  have hprops2 : ∀ a ∈ schema,
      aGet st' a.name = some (valOf st' a) ∧
      a.validate (valOf st' a) = .ok (valOf st' a) ∧
      (fragToks a (valOf st' a) = [] →
        a.parseList Option.none = .ok (valOf st' a)) ∧
      (fragToks a (valOf st' a) ≠ [] → ∃ f, f ∈ a.flags ∧
        fragToks a (valOf st' a) = f :: bucketToks a (valOf st' a) ∧
        (∀ t ∈ bucketToks a (valOf st' a), flagOwner schema t = Option.none) ∧
        a.parseList (some (bucketToks a (valOf st' a))) = .ok (valOf st' a)) :=
    fun a ha => ⟨(hstore a ha).1, (hstore a ha).2.2,
      (hfrag a ha).2.2.1, (hfrag a ha).2.2.2⟩
  have hpres : ∀ a ∈ schema, (aGet st' a.name).isSome := by
    intro a ha
    rw [(hstore a ha).1]
    rfl
  have hcmd : commandOf schema st' false = some (List.intercalate [' ']
      ((schema.map (fun a => fragStr a (valOf st' a))).filter
        (fun c => c ≠ []))) := by
    unfold commandOf
    rw [commandAux_present schema st' hpres]
  have hgoodAll : ∀ t ∈ (schema.map
      (fun a => fragToks a (valOf st' a))).flatten, goodTok t := by
    intro t ht
    obtain ⟨g, hg, ht2⟩ := List.mem_flatten.mp ht
    obtain ⟨a, ha, rfl⟩ := List.mem_map.mp hg
    exact (hfrag a ha).2.1 t ht2
  have hmapIG : schema.map (fun a => fragStr a (valOf st' a)) =
      (schema.map (fun a => fragToks a (valOf st' a))).map
        (List.intercalate [' ']) := by
    rw [List.map_map]
    apply List.map_congr_left
    intro a ha
    show fragStr a (valOf st' a) =
      List.intercalate [' '] (fragToks a (valOf st' a))
    exact (hfrag a ha).1
  have hline : List.intercalate [' ']
      ((schema.map (fun a => fragStr a (valOf st' a))).filter
        (fun c => c ≠ [])) =
      splitEncode '"'
        ((schema.map (fun a => fragToks a (valOf st' a))).flatten) := by
    rw [hmapIG, intercalate_flatten_groups _ (by
      intro g hg t ht2
      obtain ⟨a, ha, rfl⟩ := List.mem_map.mp hg
      exact ((hfrag a ha).2.1 t ht2).1)]
    unfold splitEncode
    rw [map_id_of_forall (by
      intro t ht
      exact quotify_id (hgoodAll t ht).1 (goodTok_no_space (hgoodAll t ht)))]
  have hps : parseSplit '"' (splitEncode '"'
      ((schema.map (fun a => fragToks a (valOf st' a))).flatten)) =
      .ok ((schema.map (fun a => fragToks a (valOf st' a))).flatten) := by
    apply parseSplit_splitEncode (by decide)
    intro t ht
    refine ⟨?_, Or.inr (Or.inr ?_)⟩
    · intro hq
      exact ((hgoodAll t ht).2 '"' hq).2 rfl
    · intro c hc
      exact ((hgoodAll t ht).2 c hc).1
  have hhead : ∀ t0, ((schema.map
      (fun a => fragToks a (valOf st' a))).flatten).head? = some t0 →
      ∃ b ∈ schema, t0 ∈ b.flags := by
    intro t0 hh
    have hne : (schema.map (fun a => fragToks a (valOf st' a))).flatten ≠ [] := by
      intro e; rw [e] at hh; simp at hh
    obtain ⟨g, hg, t, r, hgr, hh2⟩ := flatten_first _ hne
    rw [hh] at hh2
    obtain ⟨a, ha, hga⟩ := List.mem_map.mp hg
    obtain ⟨f, hfmem, hcons, _, _⟩ := (hfrag a ha).2.2.2 (by rw [hga, hgr]; simp)
    rw [hga, hgr] at hcons
    injection hcons with h1 _
    injection hh2 with h0
    refine ⟨a, ha, ?_⟩
    rw [h0, h1]
    exact hfmem
  have hrep := reparse_fragments hnd hfl hprops2
  refine ⟨_, hcmd, ?_⟩
  unfold callParse normalizeLine
  rw [hline, hps]
  dsimp only
  cases hall : (schema.map (fun a => fragToks a (valOf st' a))).flatten with
  | nil =>
    rw [show removeEntryFile entry [] = [] from rfl]
    rw [hall] at hrep
    exact hrep
  | cons t0 rest =>
    obtain ⟨b, hb, ht0⟩ := hhead t0 (by rw [hall]; rfl)
    have ht0ok := flagOK_parts (hfokAll b hb t0 ht0)
    have hnotentry : ¬ t0 ∈ entry := by
      intro hmem2
      unfold entryOKB at hentry
      simp only [List.all_eq_true, decide_eq_true_eq] at hentry
      exact hentry t0 hmem2 ht0ok.2.1
    rw [show removeEntryFile entry (t0 :: rest) = t0 :: rest from by
      unfold removeEntryFile
      dsimp only
      rw [if_neg hnotentry]]
    dsimp only
    rw [if_neg (by
      rintro (h1 | h1)
      · exact ht0ok.2.2.2.1 h1
      · exact ht0ok.2.2.2.2 h1)]
    rw [hall] at hrep
    exact hrep

/-- C1 witness: the single required `int` argument schema, parsed from
`--n 5`, renders a command line that re-parses to the same store. -/
theorem claimC1roundtripWitness :
    ∃ c, commandOf c10schema [("n".toList, .sc (.i 5))] false = some c ∧
      callParse c10schema [] [("n".toList, .sc (.i 5))] c =
        .ok [("n".toList, .sc (.i 5))] :=
  claimC1roundtripAmended c10schema [] [] [("n".toList, .sc (.i 5))]
    (toksOf ["--n", "5"]) (by decide) (by decide)
    (by
      intro a ha
      simp only [c10schema, List.mem_singleton] at ha
      subst ha
      exact Or.inr (Or.inr (Or.inr rfl)))
    (by decide) (by decide)
